import Mathlib

/-!
Feature selection driver (main/feature-selection.h).

A shallow embedding of the driver of the feature-selection tool: the dispatch
on the algorithm name, the pass-through of the greedy strategies, the decoding
of the best instance of the local search, and the reconstruction of the output
table (forced columns, position of the target column).

Code running outside the header (the data file, the table library, the
optimiser, the selection routines) is reached through `Env`; each such call
leaves an `Event` in the trace of the run, so that "nothing was done before the
failure" is a statement about the trace.  Calls of the logger leave no event.
-/

namespace FeatureSelection

/-! ## Data model -/

/-- Modelled from the spec: a cell of a table (vertex of table.h, not among the
sources); forced columns are loaded as definite objects, that is as strings. -/
abbrev vertex := String

/-- Modelled from the spec: one labelled column of a table. -/
structure Column where
  label : String
  data : List vertex
deriving DecidableEq, Repr

/-- Modelled from the spec: ITable of table.h, the labelled input columns from
left to right. -/
abbrev ITable := List Column

/-- Modelled from the spec: Table of table.h, input columns and the output
column. -/
structure Table where
  itable : ITable
  otable : Column
deriving DecidableEq, Repr

/-- Labels of the input columns: itable.get_labels(). -/
def ITable.get_labels (it : ITable) : List String := it.map Column.label

/-- Number of input columns: table.get_arity(). -/
def Table.get_arity (t : Table) : Nat := t.itable.length

/-- typedef std::set<arity_t> feature_set. -/
abbrev feature_set := Finset Nat

/-- Modelled from the spec: Table::filter keeps, in their original relative
order, the input columns whose index is selected. -/
def Table.filter (t : Table) (s : feature_set) : Table :=
  { itable := (t.itable.enum.filter (fun ic => decide (ic.1 ∈ s))).map Prod.snd
    otable := t.otable }

/-- A C++ double, as far as the comparisons of this header need it. -/
inductive double where
  | nan
  | neg_inf
  | pos_inf
  | finite (q : ℚ)
deriving DecidableEq

/-- The comparison `x > 0` on doubles: false on NaN. -/
def double.gt_zero : double → Bool
  | .pos_inf => true
  | .finite q => decide (0 < q)
  | _ => false

/-- struct feature_selection_parameters. -/
structure feature_selection_parameters where
  algorithm : String
  max_evals : Nat
  input_file : String
  target_feature : Int
  ignore_features : List Int
  force_features_str : List String
  output_file : String
  target_size : Nat
  threshold : double
  jobs : Nat
  inc_target_size_epsilon : double
  inc_red_intensity : double
  inc_interaction_terms : Nat
  hc_max_score : double
  hc_confi : double
  hc_cache_size : Nat
  hc_fraction_of_remaining : double
  hc_initial_features : List String

/-- Modelled from the spec: field_set of the optimisation library, always built
here as field_set(disc_spec(2), arity), one bit per candidate feature. -/
structure field_set where
  n_bits : Nat
deriving DecidableEq

/-- Modelled from the spec: the width of an instance equals the arity the field
set was built with. -/
def field_set.packed_width (f : field_set) : Nat := f.n_bits

/-- Modelled from the spec: an instance is a fixed-width bit vector, bit set
meaning feature included. -/
abbrev Instance := List Bool

/-- Modelled from the spec: the deme, a sequence of scored instances. -/
abbrev instance_set (Score : Type) := List (Instance × Score)

/-- Modelled from the spec: get_feature_set decodes an instance into the set of
the indices of its set bits. -/
def get_feature_set (fields : field_set) (inst : Instance) : feature_set :=
  (Finset.range fields.n_bits).filter (fun i => inst.getD i false = true)

/-- Parameters handed to hill climbing: hc_parameters. -/
structure hc_parameters where
  widen_search : Bool
  single_step : Bool
  crossover : Bool
  fraction_of_nn : double

/-- Parameters handed to the optimiser: optim_parameters. -/
structure optim_parameters where
  opt_algo : String
  pop_size_ratio : double
  terminate_if_gte : double
  max_dist : Nat
  min_score_improv : double
  hc_params : hc_parameters

/-! ## Outcomes of a run -/

/-- The ways a run stops early: the two calls of exit(1) of the header, the
failed lookup of a feature name in the header of the data file, and reads past
the end of a container. -/
inductive Error where
  | EmptySelection
  | UnknownAlgorithm (name : String)
  | MissingForcedFeature (name : String)
  | out_of_range
deriving DecidableEq, Repr

/-- One event per call that leaves the header. -/
inductive Event where
  | compress
  | cached_adaptive_incremental_selection
  | cached_incremental_selection
  | max_mi_selection
  | readInputLabels (file : String)
  | optimize (max_evals : Nat)
  | filter (selected : feature_set)
  | find_features_positions (file : String) (names : List String)
  | dataFileArity (file : String)
  | loadHeader (file : String)
  | loadITable (file : String) (ignored : List Int)
  | ostreamTable (t : Table) (tfp : Int)
  | saveTable (file : String) (t : Table) (tfp : Int)
deriving DecidableEq

/-- A run: the events so far and either a value or the error that stopped it. -/
structure Run (α : Type) where
  trace : List Event
  result : Except Error α

/-- A run that does nothing and returns a value. -/
def Run.pure {α : Type} (a : α) : Run α := ⟨[], .ok a⟩

/-- Sequencing: the second part runs only when the first returned. -/
def Run.bind {α β : Type} (x : Run α) (f : α → Run β) : Run β :=
  match x.result with
  | .error e => ⟨x.trace, .error e⟩
  | .ok a => ⟨x.trace ++ (f a).trace, (f a).result⟩

instance : Monad Run where
  pure := Run.pure
  bind := Run.bind

/-- A run that records one event. -/
def Run.emit (e : Event) : Run Unit := ⟨[e], .ok ()⟩

/-- A run that stops with an error. -/
def Run.fail {α : Type} (e : Error) : Run α := ⟨[], .error e⟩

/-- A computation without events, as a run. -/
def Run.lift {α : Type} (r : Except Error α) : Run α := ⟨[], r⟩

/-! ## The world outside the header -/

/-- An optimiser call `optimize(deme, init_inst, scorer, max_evals, &ae)`: the
deme it leaves, the number of evaluations and the number of evaluations needed
to reach the best candidate. -/
abbrev Optimize (Score : Type) :=
  instance_set Score → Instance → (Instance → Score) → Nat → instance_set Score × Nat × Nat

/-- What the header calls and does not define: the data files, the table
library, the scorers, the selection routines, the optimiser and the sort of
the standard library. -/
structure Env (CTable Score : Type) where
  /-- Columns of the data file of a given name, the target included, in file order. -/
  file : String → List Column
  readInputLabels : String → Int → List Int → List String
  compress : Table → CTable
  cached_adaptive_incremental_selection :
    CTable → feature_set → Nat → Nat → double → double → double → double → feature_set
  cached_incremental_selection : CTable → feature_set → double → Nat → double → feature_set
  max_mi_selection : CTable → feature_set → Nat → double → feature_set
  MICScorerTable : Table → double → feature_set → Score
  moses_based_scorer : (feature_set → Score) → field_set → Instance → Score
  prr_cache_threaded : Nat → (Instance → Score) → Instance → Score
  hill_climbing : optim_parameters → Optimize Score
  /-- The call boost::sort(deme, std::greater<scored_instance<composite_score> >()). -/
  sort_greater : instance_set Score → instance_set Score

section
variable {CTable Score : Type}

/-- Modelled from the spec: the header of a data file, the labels of its
columns in file order, as loadHeader of the table library reads it. -/
def Env.header (E : Env CTable Score) (file : String) : List String :=
  (E.file file).map Column.label

/-- Modelled from the spec: find_features_positions of the table library
resolves each name to its position in the header of the data file; a name that
is not in the header is fatal. -/
def features_positions (header : List String) : List String → Except Error (List Int)
  | [] => .ok []
  | f :: fs =>
    if header.indexOf f < header.length then
      match features_positions header fs with
      | .ok ps => .ok ((header.indexOf f : Int) :: ps)
      | .error e => .error e
    else .error (.MissingForcedFeature f)

/-- The call find_features_positions(file, names): the lookup of the names in
the header read from the data file. -/
def find_features_positions (E : Env CTable Score) (file : String) (names : List String) :
    Run (List Int) :=
  ⟨[.find_features_positions file names], features_positions (E.header file) names⟩

/-- Modelled from the spec: dataFileArity, the number of columns of the data
file but the target. -/
def dataFileArity (E : Env CTable Score) (file : String) : Run Int :=
  ⟨[.dataFileArity file], .ok (((E.file file).length : Int) - 1)⟩

/-- The call loadHeader(file). -/
def loadHeader (E : Env CTable Score) (file : String) : Run (List String) :=
  ⟨[.loadHeader file], .ok (E.header file)⟩

/-- Modelled from the spec: loadITable reads, in file order and as raw strings,
the columns of the data file whose position is not ignored. -/
def loadITable (E : Env CTable Score) (file : String) (ignored : List Int) : Run ITable :=
  ⟨[.loadITable file ignored],
   .ok (((E.file file).enum.filter (fun ic => decide ((ic.1 : Int) ∉ ignored))).map Prod.snd)⟩

/-- The integer range boost::irange(first, last), for first = 0. -/
def irange (last : Int) : List Int := (List.range last.toNat).map Int.ofNat

/-- The steps of std::set_difference while the head a of the first range stays
in place: the second range is advanced past its smaller elements; rest is the
algorithm on what follows a in the first range. -/
def set_difference_head (a : Int) (rest : List Int → List Int) : List Int → List Int
  | [] => a :: rest []
  | b :: bs =>
    if a < b then a :: rest (b :: bs)
    else if b < a then set_difference_head a rest bs
    else rest bs

/-- The call boost::set_difference(a, b, out), the two-pointer algorithm of the
standard library on sorted ranges. -/
def set_difference : List Int → List Int → List Int
  | [], _ => []
  | a :: as, bs => set_difference_head a (set_difference as) bs

/-- Modelled from the spec: ITable::get_col(offset), label and data of the
column at an offset. -/
def ITable.get_col (it : ITable) (offset : Nat) : Except Error (String × List vertex) :=
  match it.get? offset with
  | some c => .ok (c.label, c.data)
  | none => .error .out_of_range

/-- Modelled from the spec: ITable::insert_col(label, column, offset) puts the
column at index offset, or at the end when offset is negative. -/
def ITable.insert_col (it : ITable) (clab : String) (col : List vertex) (off : Int) :
    Except Error ITable :=
  if 0 ≤ off then
    if off.toNat ≤ it.length then .ok (it.take off.toNat ++ ⟨clab, col⟩ :: it.drop off.toNat)
    else .error .out_of_range
  else .ok (it ++ [⟨clab, col⟩])

/-! ## The header: local search -/

/-- The loop of initial_instance over hc_initial_features: the bit of each name
found among the labels is set, a name that is not found is skipped (with a
warning of the logger). Writing a bit past the width of the instance is
undefined: the run stops with out_of_range. -/
def set_initial_bits (labels : List String) : List String → Instance → Except Error Instance
  | [], res => .ok res
  | f :: fs, res =>
    if labels.indexOf f < labels.length then
      if labels.indexOf f < res.length then
        set_initial_bits labels fs (res.set (labels.indexOf f) true)
      else .error .out_of_range
    else set_initial_bits labels fs res

/-- For the MOSES algo, generate the initial instance. -/
def initial_instance (E : Env CTable Score) (fs_params : feature_selection_parameters)
    (fields : field_set) : Run Instance := do
  let res : Instance := List.replicate fields.packed_width false
  Run.emit (.readInputLabels fs_params.input_file)
  let labels := E.readInputLabels fs_params.input_file fs_params.target_feature
    fs_params.ignore_features
  Run.lift (set_initial_bits labels fs_params.hc_initial_features res)

/-- The template moses_select_features(table, fields, deme, init_inst, optimize,
scorer, fs_params): optimise, sort the deme in descending order and decode the
best instance; best_score is only logged. Reading the first instance of an
empty deme is undefined: the run stops with out_of_range. -/
def moses_select_features (E : Env CTable Score) (_table : Table) (fields : field_set)
    (deme : instance_set Score) (init_inst : Instance) (optimize : Optimize Score)
    (scorer : Instance → Score) (fs_params : feature_selection_parameters) :
    Run feature_set := do
  Run.emit (.optimize fs_params.max_evals)
  let r := optimize deme init_inst scorer fs_params.max_evals
  let evals := r.2.1
  let deme := E.sort_greater r.1
  let best_inst ← (if evals > 0 then
      match deme with
      | [] => Run.fail .out_of_range
      | si :: _ => Run.pure si.1
    else Run.pure init_inst)
  let selected_features := get_feature_set fields best_inst
  pure selected_features

/-- Run feature selection given a moses optimizer:
moses_select_features(table, optimize, fs_params). -/
def moses_select_features_table (E : Env CTable Score) (table : Table)
    (optimize : Optimize Score) (fs_params : feature_selection_parameters) :
    Run feature_set := do
  let arity := table.get_arity
  let fields : field_set := ⟨arity⟩
  let deme : instance_set Score := []
  let init_inst ← initial_instance E fs_params fields
  let fs_sc := E.MICScorerTable table fs_params.hc_confi
  let mb_sc := E.moses_based_scorer fs_sc fields
  if fs_params.hc_cache_size > 0 then
    let sc_cache := E.prr_cache_threaded fs_params.hc_cache_size mb_sc
    moses_select_features E table fields deme init_inst optimize sc_cache fs_params
  else
    moses_select_features E table fields deme init_inst optimize mb_sc fs_params

/-! ## The header: reconstruction of the table -/

/-- The inner loop `while(rit != fsel_pos.cend() && *lit > *rit) ++rit`; the
iterator rit is its distance from the start and what is left to read. -/
def advance_rit (lit : Int) : Nat → List Int → Nat × List Int
  | ridx, [] => (ridx, [])
  | ridx, r :: rest => if lit > r then advance_rit lit (ridx + 1) rest else (ridx, r :: rest)

/-- The loop of add_force_features inserting the missing columns: lits is what
is left of fnsel_pos from lit on, lpos the distance of lit from the start. -/
def insert_forced (fns_itable : ITable) :
    List Int → Nat → Nat → List Int → ITable → Except Error ITable
  | [], _, _, _, new_itable => .ok new_itable
  | lit :: lits, lpos, ridx, rrest, new_itable =>
    match fns_itable.get_col lpos with
    | .error e => .error e
    | .ok lc =>
      let rit := advance_rit lit ridx rrest
      let rpos : Int := if rit.2 ≠ [] then (rit.1 : Int) + (lpos : Int) else -1
      match new_itable.insert_col lc.1 lc.2 rpos with
      | .error e => .error e
      | .ok it => insert_forced fns_itable lits (lpos + 1) rit.1 rit.2 it

/-- Add forced features to table. -/
def add_force_features (E : Env CTable Score) (table : Table)
    (fs_params : feature_selection_parameters) : Run Table := do
  let itable := table.itable
  let ilabels := itable.get_labels
  -- get forced features that have not been selected
  let fnsel := fs_params.force_features_str.filter (fun fn => decide (fn ∉ ilabels))
  -- get their positions; boost::sort on integers, whose result is unique
  let fnsel_pos ← find_features_positions E fs_params.input_file fnsel
  let fnsel_pos := fnsel_pos.insertionSort (· ≤ ·)
  -- get the complementary of their positions
  let arity ← dataFileArity E fs_params.input_file
  let ir := irange (arity + 1)
  let fnsel_pos_comp := set_difference ir fnsel_pos
  -- get header of the input table
  let _header ← loadHeader E fs_params.input_file
  -- load the table with the forced features that are not selected
  let fns_itable ← loadITable E fs_params.input_file fnsel_pos_comp
  -- find the positions of the selected features
  let fsel_pos ← find_features_positions E fs_params.input_file ilabels
  -- insert the forced features in the right order
  let new_itable ← Run.lift (insert_forced fns_itable fnsel_pos 0 0 fsel_pos itable)
  pure { otable := table.otable, itable := new_itable }

/-- The call boost::adjacent_find(range, pred): distance from the start of the
first element of the first adjacent pair satisfying pred, the length of the
range (its end) when there is none. -/
def adjacent_find (pred : Int → Int → Bool) : List Int → Nat
  | a :: b :: rest => if pred a b then 0 else adjacent_find pred (b :: rest) + 1
  | [_] => 1
  | [] => 0

/-- Update fs_params.target_feature so that it keeps the same relative position
with the selected features. Calling front() or back() on an empty vector, and
incrementing the end iterator that adjacent_find returns when no pair is found,
are undefined: the run stops with out_of_range. -/
def update_target_feature (E : Env CTable Score) (table : Table)
    (fs_params : feature_selection_parameters) : Run Int :=
  let tfp := fs_params.target_feature
  if tfp ≤ 0 then pure tfp
  else do
    let fsel_pos ← find_features_positions E fs_params.input_file table.itable.get_labels
    match fsel_pos.head?, fsel_pos.getLast? with
    | some front, some back =>
      if tfp < front then pure 0 -- it is first
      else if tfp > back then pure (-1) -- it is last
      else -- it is somewhere in between
        let it := adjacent_find (fun l r => decide (l < tfp) && decide (tfp < r)) fsel_pos
        if it < fsel_pos.length then pure ((it : Int) + 1)
        else Run.fail .out_of_range
    | _, _ => Run.fail .out_of_range

/-- Reconstruct the table and write it: write_results. -/
def write_results (E : Env CTable Score) (table : Table)
    (fs_params : feature_selection_parameters) : Run Unit := do
  let table_wff ← add_force_features E table fs_params
  let tfp ← update_target_feature E table_wff fs_params
  if fs_params.output_file = "" then Run.emit (.ostreamTable table_wff tfp)
  else Run.emit (.saveTable fs_params.output_file table_wff tfp)

/-! ## The header: strategies and driver -/

/-- Feature selection algorithm: moses based univariate. -/
def un : String := "un"
/-- Feature selection algorithm: moses based simulation annealing. -/
def sa : String := "sa"
/-- Feature selection algorithm: moses based hillclimbing. -/
def hc : String := "hc"
/-- Feature selection algorithm: incremental_selection. -/
def inc : String := "inc"
/-- Feature selection algorithm: max_mi_selection. -/
def mmi : String := "mmi"

/-- Modelled from the spec: the constant moses::hc of the optimisation library,
not among the sources; it names hill climbing as the constant hc of the header
does. -/
def moses.hc : String := "hc"

/-- The function incremental_select_features. -/
def incremental_select_features (E : Env CTable Score) (table : Table)
    (fs_params : feature_selection_parameters) : Run feature_set :=
  let all_features : feature_set := Finset.range table.get_arity
  if fs_params.threshold.gt_zero || decide (fs_params.target_size > 0) then do
    Run.emit .compress
    let ctable := E.compress table
    if fs_params.target_size > 0 then do
      Run.emit .cached_adaptive_incremental_selection
      pure (E.cached_adaptive_incremental_selection ctable all_features
        fs_params.target_size fs_params.inc_interaction_terms fs_params.inc_red_intensity
        (.finite 0) (.finite 1) fs_params.inc_target_size_epsilon)
    else do
      Run.emit .cached_incremental_selection
      pure (E.cached_incremental_selection ctable all_features fs_params.threshold
        fs_params.inc_interaction_terms fs_params.inc_red_intensity)
  else
    -- Nothing happened, return all features by default
    pure all_features

/-- The function max_mi_select_features. -/
def max_mi_select_features (E : Env CTable Score) (table : Table)
    (fs_params : feature_selection_parameters) : Run feature_set :=
  let all_features : feature_set := Finset.range table.get_arity
  if fs_params.target_size > 0 then do
    Run.emit .compress
    let ctable := E.compress table
    Run.emit .max_mi_selection
    pure (E.max_mi_selection ctable all_features fs_params.target_size fs_params.threshold)
  else
    -- Nothing happened, return the all features by default
    pure all_features

/-- Select the features according to the method described in fs_params. -/
def select_features (E : Env CTable Score) (table : Table)
    (fs_params : feature_selection_parameters) : Run feature_set :=
  if fs_params.algorithm = moses.hc then
    let op_param : optim_parameters :=
      { opt_algo := moses.hc
        pop_size_ratio := .finite 20
        terminate_if_gte := fs_params.hc_max_score
        max_dist := 4
        min_score_improv := .finite 0
        hc_params := ⟨true, false, false, fs_params.hc_fraction_of_remaining⟩ }
    moses_select_features_table E table (E.hill_climbing op_param) fs_params
  else if fs_params.algorithm = inc then
    incremental_select_features E table fs_params
  else if fs_params.algorithm = mmi then
    max_mi_select_features E table fs_params
  else
    Run.fail (.UnknownAlgorithm fs_params.algorithm)

/-- The function err_empty_features: a message and exit(1). -/
def err_empty_features : Run Unit := Run.fail .EmptySelection

/-- Select the features, and output the table with the selected features. -/
def feature_selection (E : Env CTable Score) (table : Table)
    (fs_params : feature_selection_parameters) : Run Unit := do
  let selected_features ← select_features E table fs_params
  if selected_features = ∅ then
    err_empty_features
  else do
    Run.emit (.filter selected_features)
    let ftable := table.filter selected_features
    write_results E ftable fs_params

end

/-! ## Example data -/

/-- A data file with four input columns and the target y. -/
def example_file : List Column :=
  [⟨"col0", ["1", "0"]⟩, ⟨"col1", ["0", "0"]⟩, ⟨"col2", ["1", "1"]⟩, ⟨"col3", ["0", "1"]⟩,
   ⟨"y", ["1", "0"]⟩]

/-- A data file with five input columns and the target at position 2. -/
def wide_file : List Column :=
  [⟨"f0", ["a"]⟩, ⟨"f1", ["b"]⟩, ⟨"t", ["c"]⟩, ⟨"f3", ["d"]⟩, ⟨"f4", ["e"]⟩, ⟨"f5", ["f"]⟩]

/-- The table loaded from the wide file: its five input columns and the target. -/
def wide_full_table : Table :=
  ⟨[⟨"f0", ["a"]⟩, ⟨"f1", ["b"]⟩, ⟨"f3", ["d"]⟩, ⟨"f4", ["e"]⟩, ⟨"f5", ["f"]⟩], ⟨"t", ["c"]⟩⟩

/-- The input columns at positions 0 and 4 of the wide file, and its target. -/
def wide_table : Table := ⟨[⟨"f0", ["a"]⟩, ⟨"f4", ["e"]⟩], ⟨"t", ["c"]⟩⟩

/-- The table loaded from the example file: its input columns and the target. -/
def example_table : Table := ⟨example_file.take 4, ⟨"y", ["1", "0"]⟩⟩

/-- A table without input columns. -/
def empty_table : Table := ⟨[], ⟨"y", ["1", "0"]⟩⟩

/-- The deme sorted in descending order of the scores, by insertion. -/
def sort_by_score (deme : instance_set Nat) : instance_set Nat :=
  deme.insertionSort (fun a b => a.2 ≥ b.2)

/-- An environment over the example file whose selection routines all return
the set best, and whose optimiser hands back the deme it is given together
with a number of evaluations. -/
def example_env (best : feature_set) (evals : Nat) : Env Unit Nat :=
  { file := fun name => if name = "wide.csv" then wide_file else example_file
    readInputLabels := fun _ _ _ => ["col0", "col1", "col2", "col3"]
    compress := fun _ => ()
    cached_adaptive_incremental_selection := fun _ _ _ _ _ _ _ _ => best
    cached_incremental_selection := fun _ _ _ _ _ => best
    max_mi_selection := fun _ _ _ _ => best
    MICScorerTable := fun _ _ s => s.card
    moses_based_scorer := fun sc fields inst => sc (get_feature_set fields inst)
    prr_cache_threaded := fun _ sc => sc
    hill_climbing := fun _ deme _ _ _ => (deme, evals, evals)
    sort_greater := sort_by_score }

/-- Parameters of the examples: a given data file, algorithm, target, target
size and list of forced features, threshold 0. -/
def example_params (input_file : String) (algorithm : String) (target_feature : Int) (target_size : Nat)
    (force : List String) : feature_selection_parameters :=
  { algorithm := algorithm
    max_evals := 100
    input_file := input_file
    target_feature := target_feature
    ignore_features := []
    force_features_str := force
    output_file := ""
    target_size := target_size
    threshold := .finite 0
    jobs := 1
    inc_target_size_epsilon := .finite 0
    inc_red_intensity := .finite 0
    inc_interaction_terms := 1
    hc_max_score := .finite 1
    hc_confi := .finite 0
    hc_cache_size := 0
    hc_fraction_of_remaining := .finite 1
    hc_initial_features := [] }

/-- Parameters of the examples for hill climbing with given initial features. -/
def example_hc_params (init : List String) : feature_selection_parameters :=
  { example_params "data.csv" "hc" (-1) 0 [] with hc_initial_features := init }

/-- A deme of two scored instances over four features. -/
def example_deme : instance_set Nat :=
  [([true, false, false, false], 1), ([false, true, true, false], 3)]

/-- The merge the spec asks of the reconstruction, on columns paired with their
position in the data file: every forced column is put after the selected
columns of smaller position and before the others. -/
def merge_by_position : List (Int × Column) → List (Int × Column) → List (Int × Column)
  | S, [] => S
  | S, (l, d) :: F =>
    S.takeWhile (fun rc => decide (l > rc.1)) ++
      (l, d) :: merge_by_position (S.dropWhile (fun rc => decide (l > rc.1))) F

/-! ## Facts about runs -/

section
variable {CTable Score : Type}

@[simp] theorem Run.bind_def {α β : Type} (x : Run α) (f : α → Run β) :
    (x >>= f) = Run.bind x f := rfl

@[simp] theorem Run.pure_def {α : Type} (a : α) : (Pure.pure a : Run α) = Run.pure a := rfl

theorem Run.ext {α : Type} {x y : Run α} (ht : x.trace = y.trace) (hr : x.result = y.result) :
    x = y := by
  cases x; cases y; simp_all

theorem Run.bind_result_error {α β : Type} (x : Run α) (f : α → Run β) (e : Error) :
    (Run.bind x f).result = .error e ↔
      x.result = .error e ∨ ∃ a, x.result = .ok a ∧ (f a).result = .error e := by
  unfold Run.bind
  cases h : x.result <;> simp

theorem set_initial_bits_error (labels : List String) (fs : List String) (res : Instance)
    (e : Error) (h : set_initial_bits labels fs res = .error e) : e = .out_of_range := by
  induction fs generalizing res with
  | nil => simp [set_initial_bits] at h
  | cons f fs ih =>
    simp only [set_initial_bits] at h
    split at h
    · split at h
      · exact ih _ h
      · injection h with h; exact h.symm
    · exact ih _ h

theorem moses_select_features_error (E : Env CTable Score) (table : Table) (fields : field_set)
    (deme : instance_set Score) (init_inst : Instance) (optimize : Optimize Score)
    (scorer : Instance → Score) (fs_params : feature_selection_parameters) (e : Error)
    (h : (moses_select_features E table fields deme init_inst optimize scorer fs_params).result
      = .error e) : e = .out_of_range := by
  simp only [moses_select_features, Run.bind_def, Run.pure_def, Run.bind_result_error] at h
  rcases h with h | ⟨_, _, h⟩
  · simp [Run.emit] at h
  · rcases h with h | ⟨_, _, h⟩
    · split at h
      · split at h
        · simp [Run.fail] at h; exact h.symm
        · simp [Run.pure] at h
      · simp [Run.pure] at h
    · simp [Run.pure] at h

theorem moses_select_features_table_error (E : Env CTable Score) (table : Table)
    (optimize : Optimize Score) (fs_params : feature_selection_parameters) (e : Error)
    (h : (moses_select_features_table E table optimize fs_params).result = .error e) :
    e = .out_of_range := by
  simp only [moses_select_features_table, Run.bind_def, Run.bind_result_error] at h
  rcases h with h | ⟨_, _, h⟩
  · simp only [initial_instance, Run.bind_def, Run.bind_result_error] at h
    rcases h with h | ⟨_, _, h⟩
    · simp [Run.emit] at h
    · exact set_initial_bits_error _ _ _ _ h
  · split at h <;> exact moses_select_features_error _ _ _ _ _ _ _ _ _ h

theorem incremental_select_features_ok (E : Env CTable Score) (table : Table)
    (fs_params : feature_selection_parameters) :
    ∃ s, (incremental_select_features E table fs_params).result = .ok s := by
  unfold incremental_select_features
  split
  · split <;> exact ⟨_, rfl⟩
  · exact ⟨_, rfl⟩

theorem max_mi_select_features_ok (E : Env CTable Score) (table : Table)
    (fs_params : feature_selection_parameters) :
    ∃ s, (max_mi_select_features E table fs_params).result = .ok s := by
  unfold max_mi_select_features
  split <;> exact ⟨_, rfl⟩

/-! ## Pass-through of the greedy strategies (C1) -/

theorem incremental_select_features_zero (E : Env CTable Score) (table : Table)
    (fs_params : feature_selection_parameters) (hsize : fs_params.target_size = 0)
    (hthr : fs_params.threshold = .finite 0) :
    incremental_select_features E table fs_params
      = ⟨[], .ok (Finset.range table.get_arity)⟩ := by
  simp [incremental_select_features, hsize, hthr, double.gt_zero, Run.pure]

theorem max_mi_select_features_zero (E : Env CTable Score) (table : Table)
    (fs_params : feature_selection_parameters) (hsize : fs_params.target_size = 0) :
    max_mi_select_features E table fs_params = ⟨[], .ok (Finset.range table.get_arity)⟩ := by
  simp [max_mi_select_features, hsize, Run.pure]

/-- C1: with target_size = 0 and threshold = 0 the incremental strategy, and with
target_size = 0 and any threshold the max-MI strategy, return the set of all
column indices 0 .. arity-1 of the table, with an empty trace: the table is not
compressed and no scorer or selection routine is called. -/
theorem pass_through_law (E : Env CTable Score) (table : Table)
    (fs_params : feature_selection_parameters) (hsize : fs_params.target_size = 0) :
    (fs_params.threshold = .finite 0 →
      incremental_select_features E table fs_params
        = ⟨[], .ok (Finset.range table.get_arity)⟩) ∧
    max_mi_select_features E table fs_params = ⟨[], .ok (Finset.range table.get_arity)⟩ :=
  ⟨incremental_select_features_zero E table fs_params hsize,
   max_mi_select_features_zero E table fs_params hsize⟩

theorem pass_through_law_witness :
    (example_params "data.csv" "inc" (-1) 0 []).target_size = 0 ∧
    ((example_params "data.csv" "inc" (-1) 0 []).threshold = .finite 0 →
      incremental_select_features (example_env ∅ 0) example_table (example_params "data.csv" "inc" (-1) 0 [])
        = ⟨[], .ok (Finset.range example_table.get_arity)⟩) ∧
    max_mi_select_features (example_env ∅ 0) example_table (example_params "data.csv" "inc" (-1) 0 [])
      = ⟨[], .ok (Finset.range example_table.get_arity)⟩ :=
  ⟨rfl, pass_through_law (example_env ∅ 0) example_table (example_params "data.csv" "inc" (-1) 0 []) rfl⟩

/-! ## Unknown algorithm (C3) -/

/-- C3: select_features fails with UnknownAlgorithm exactly when the algorithm
name is none of "hc", "inc", "mmi"; the failure then comes with an empty trace,
before any work on the table; the declared names "un" and "sa" are rejected. -/
theorem unknown_algorithm_iff (E : Env CTable Score) (table : Table)
    (fs_params : feature_selection_parameters) :
    ((∃ name, (select_features E table fs_params).result = .error (.UnknownAlgorithm name))
      ↔ fs_params.algorithm ∉ ["hc", "inc", "mmi"]) ∧
    (fs_params.algorithm ∉ ["hc", "inc", "mmi"] →
      select_features E table fs_params = ⟨[], .error (.UnknownAlgorithm fs_params.algorithm)⟩) ∧
    select_features E table { fs_params with algorithm := un }
      = ⟨[], .error (.UnknownAlgorithm "un")⟩ ∧
    select_features E table { fs_params with algorithm := sa }
      = ⟨[], .error (.UnknownAlgorithm "sa")⟩ := by
  have hgo : fs_params.algorithm ∉ ["hc", "inc", "mmi"] →
      select_features E table fs_params
        = ⟨[], .error (.UnknownAlgorithm fs_params.algorithm)⟩ := by
    intro h
    simp only [List.mem_cons, List.mem_singleton, List.not_mem_nil, not_or, or_false] at h
    simp [select_features, moses.hc, inc, mmi, h.1, h.2.1, h.2.2, Run.fail]
  refine ⟨⟨?_, fun h => ⟨_, by rw [hgo h]⟩⟩, hgo, ?_, ?_⟩
  · rintro ⟨name, h⟩ hmem
    simp only [List.mem_cons, List.mem_singleton, List.not_mem_nil, or_false] at hmem
    unfold select_features at h
    rcases hmem with hm | hm | hm
    · rw [if_pos (by rw [hm]; rfl)] at h
      have := moses_select_features_table_error _ _ _ _ _ h
      simp at this
    · rw [if_neg (by rw [hm]; decide), if_pos (by rw [hm]; rfl)] at h
      obtain ⟨s, hs⟩ := incremental_select_features_ok E table fs_params
      rw [hs] at h
      simp at h
    · rw [if_neg (by rw [hm]; decide), if_neg (by rw [hm]; decide),
        if_pos (by rw [hm]; rfl)] at h
      obtain ⟨s, hs⟩ := max_mi_select_features_ok E table fs_params
      rw [hs] at h
      simp at h
  · simp [select_features, moses.hc, inc, mmi, un, Run.fail]
  · simp [select_features, moses.hc, inc, mmi, sa, Run.fail]

theorem unknown_algorithm_iff_witness :
    select_features (example_env ∅ 0) example_table (example_params "data.csv" "un" (-1) 0 [])
      = ⟨[], .error (.UnknownAlgorithm "un")⟩ :=
  (unknown_algorithm_iff (example_env ∅ 0) example_table
    (example_params "data.csv" "un" (-1) 0 [])).2.1 (by decide)

/-! ## Empty selection (C2) -/

theorem features_positions_error (header names : List String) (e : Error)
    (h : features_positions header names = .error e) : ∃ n, e = .MissingForcedFeature n := by
  induction names with
  | nil => simp [features_positions] at h
  | cons f fs ih =>
    simp only [features_positions] at h
    split at h
    · split at h
      · simp at h
      · rename_i e2 he
        injection h with h
        subst h
        exact ih he
    · injection h with h
      exact ⟨f, h.symm⟩

theorem insert_col_error (it : ITable) (clab : String) (col : List vertex) (off : Int)
    (e : Error) (h : it.insert_col clab col off = .error e) : e = .out_of_range := by
  unfold ITable.insert_col at h
  split at h
  · split at h
    · simp at h
    · injection h with h; exact h.symm
  · simp at h

theorem get_col_error (it : ITable) (offset : Nat) (e : Error)
    (h : it.get_col offset = .error e) : e = .out_of_range := by
  unfold ITable.get_col at h
  split at h
  · simp at h
  · injection h with h; exact h.symm

theorem insert_forced_error (fns : ITable) (lits : List Int) (lpos ridx : Nat)
    (rrest : List Int) (it : ITable) (e : Error)
    (h : insert_forced fns lits lpos ridx rrest it = .error e) : e = .out_of_range := by
  induction lits generalizing lpos ridx rrest it with
  | nil => simp [insert_forced] at h
  | cons lit lits ih =>
    simp only [insert_forced] at h
    split at h
    · rename_i e2 he
      injection h with h
      subst h
      exact get_col_error _ _ _ he
    · split at h
      · rename_i e2 he
        injection h with h
        subst h
        exact insert_col_error _ _ _ _ _ he
      · exact ih _ _ _ _ h

theorem add_force_features_error (E : Env CTable Score) (table : Table)
    (fs_params : feature_selection_parameters) (e : Error)
    (h : (add_force_features E table fs_params).result = .error e) :
    e ≠ .EmptySelection := by
  simp only [add_force_features, Run.bind_def, Run.pure_def, Run.bind_result_error] at h
  rcases h with h | ⟨_, _, h | ⟨_, _, h | ⟨_, _, h | ⟨_, _, h | ⟨_, _, h | ⟨_, _, h⟩⟩⟩⟩⟩⟩
  · obtain ⟨n, rfl⟩ := features_positions_error _ _ _ h
    simp
  · simp [dataFileArity] at h
  · simp [loadHeader] at h
  · simp [loadITable] at h
  · obtain ⟨n, rfl⟩ := features_positions_error _ _ _ h
    simp
  · rw [insert_forced_error _ _ _ _ _ _ _ h]
    simp
  · simp [Run.pure] at h

theorem update_target_feature_error (E : Env CTable Score) (table : Table)
    (fs_params : feature_selection_parameters) (e : Error)
    (h : (update_target_feature E table fs_params).result = .error e) :
    e ≠ .EmptySelection := by
  unfold update_target_feature at h
  simp only at h
  split at h
  · simp [Run.pure] at h
  · simp only [Run.bind_def, Run.pure_def, Run.bind_result_error] at h
    rcases h with h | ⟨ps, _, h⟩
    · obtain ⟨n, rfl⟩ := features_positions_error _ _ _ h
      simp
    · split at h
      · split at h
        · simp [Run.pure] at h
        · split at h
          · simp [Run.pure] at h
          · split at h
            · simp [Run.pure] at h
            · simp only [Run.fail] at h
              injection h with h
              subst h
              simp
      · simp only [Run.fail] at h
        injection h with h
        subst h
        simp

theorem write_results_error (E : Env CTable Score) (table : Table)
    (fs_params : feature_selection_parameters) (e : Error)
    (h : (write_results E table fs_params).result = .error e) : e ≠ .EmptySelection := by
  simp only [write_results, Run.bind_def, Run.bind_result_error] at h
  rcases h with h | ⟨_, _, h | ⟨_, _, h⟩⟩
  · exact add_force_features_error _ _ _ _ h
  · exact update_target_feature_error _ _ _ _ h
  · split at h <;> simp [Run.emit] at h

theorem select_features_error (E : Env CTable Score) (table : Table)
    (fs_params : feature_selection_parameters) (e : Error)
    (h : (select_features E table fs_params).result = .error e) : e ≠ .EmptySelection := by
  unfold select_features at h
  split at h
  · rw [moses_select_features_table_error _ _ _ _ _ h]
    simp
  · split at h
    · obtain ⟨s, hs⟩ := incremental_select_features_ok E table fs_params
      rw [hs] at h
      simp at h
    · split at h
      · obtain ⟨s, hs⟩ := max_mi_select_features_ok E table fs_params
        rw [hs] at h
        simp at h
      · simp only [Run.fail] at h
        injection h with h
        subst h
        simp

theorem Run.mem_bind_trace {α β : Type} (x : Run α) (f : α → Run β) (ev : Event)
    (h : ev ∈ (Run.bind x f).trace) :
    ev ∈ x.trace ∨ ∃ a, x.result = .ok a ∧ ev ∈ (f a).trace := by
  unfold Run.bind at h
  cases hx : x.result with
  | error e =>
    rw [hx] at h
    exact Or.inl h
  | ok a =>
    rw [hx] at h
    rcases List.mem_append.1 h with h | h
    · exact Or.inl h
    · exact Or.inr ⟨a, rfl, h⟩

theorem moses_select_features_trace (E : Env CTable Score) (table : Table) (fields : field_set)
    (deme : instance_set Score) (init_inst : Instance) (optimize : Optimize Score)
    (scorer : Instance → Score) (fs_params : feature_selection_parameters) :
    ∀ ev ∈ (moses_select_features E table fields deme init_inst optimize scorer fs_params).trace,
      ev = .optimize fs_params.max_evals := by
  intro ev hev
  simp only [moses_select_features, Run.bind_def, Run.pure_def] at hev
  rcases Run.mem_bind_trace _ _ _ hev with h | ⟨_, _, h⟩
  · simpa [Run.emit] using h
  · rcases Run.mem_bind_trace _ _ _ h with h | ⟨_, _, h⟩
    · split at h
      · split at h <;> simp [Run.fail, Run.pure] at h
      · simp [Run.pure] at h
    · simp [Run.pure] at h

theorem moses_select_features_table_trace (E : Env CTable Score) (table : Table)
    (optimize : Optimize Score) (fs_params : feature_selection_parameters) :
    ∀ ev ∈ (moses_select_features_table E table optimize fs_params).trace,
      ev = .readInputLabels fs_params.input_file ∨ ev = .optimize fs_params.max_evals := by
  intro ev hev
  simp only [moses_select_features_table, Run.bind_def] at hev
  rcases Run.mem_bind_trace _ _ _ hev with h | ⟨_, _, h⟩
  · simp only [initial_instance, Run.bind_def] at h
    rcases Run.mem_bind_trace _ _ _ h with h | ⟨_, _, h⟩
    · left
      simpa [Run.emit] using h
    · simp [Run.lift] at h
  · right
    split at h <;> exact moses_select_features_trace _ _ _ _ _ _ _ _ ev h

theorem select_features_trace (E : Env CTable Score) (table : Table)
    (fs_params : feature_selection_parameters) :
    ∀ ev ∈ (select_features E table fs_params).trace,
      ev = .compress ∨ ev = .cached_adaptive_incremental_selection ∨
      ev = .cached_incremental_selection ∨ ev = .max_mi_selection ∨
      ev = .readInputLabels fs_params.input_file ∨ ev = .optimize fs_params.max_evals := by
  intro ev hev
  unfold select_features at hev
  split at hev
  · rcases moses_select_features_table_trace _ _ _ _ ev hev with h | h
    · exact Or.inr (Or.inr (Or.inr (Or.inr (Or.inl h))))
    · exact Or.inr (Or.inr (Or.inr (Or.inr (Or.inr h))))
  · split at hev
    · unfold incremental_select_features at hev
      split at hev
      · split at hev <;> simp [Run.bind, Run.emit, Run.pure] at hev <;>
          rcases hev with h | h <;> simp [h]
      · simp [Run.pure] at hev
    · split at hev
      · unfold max_mi_select_features at hev
        split at hev
        · simp [Run.bind, Run.emit, Run.pure] at hev
          rcases hev with h | h <;> simp [h]
        · simp [Run.pure] at hev
      · simp [Run.fail] at hev

/-- C2: feature_selection fails with EmptySelection exactly when select_features
returns the empty set; the trace of the run is then the trace of select_features
alone, in which no event is a filter, a read of the data file for the
reconstruction or a write of the table; algorithm "inc" with threshold 0 and
target_size 0 on a table without input columns selects the empty set and ends
in EmptySelection. -/
theorem empty_selection_iff (E : Env CTable Score) (table : Table)
    (fs_params : feature_selection_parameters) :
    ((feature_selection E table fs_params).result = .error .EmptySelection
      ↔ (select_features E table fs_params).result = .ok ∅) ∧
    ((select_features E table fs_params).result = .ok ∅ →
      (feature_selection E table fs_params).trace = (select_features E table fs_params).trace ∧
      ∀ ev ∈ (feature_selection E table fs_params).trace,
        (∀ s, ev ≠ .filter s) ∧ (∀ f ns, ev ≠ .find_features_positions f ns) ∧
        (∀ f ig, ev ≠ .loadITable f ig) ∧ (∀ t tfp, ev ≠ .ostreamTable t tfp) ∧
        (∀ f t tfp, ev ≠ .saveTable f t tfp)) ∧
    (fs_params.algorithm = "inc" → fs_params.threshold = .finite 0 →
      fs_params.target_size = 0 → table.get_arity = 0 →
      select_features E table fs_params = ⟨[], .ok ∅⟩ ∧
      feature_selection E table fs_params = ⟨[], .error .EmptySelection⟩) := by
  refine ⟨⟨?_, ?_⟩, ?_, ?_⟩
  · intro h
    simp only [feature_selection, Run.bind_def, Run.bind_result_error] at h
    rcases h with h | ⟨s, hs, h⟩
    · exact absurd rfl (select_features_error _ _ _ _ h)
    · by_cases hem : s = ∅
      · rw [hs, hem]
      · rw [if_neg hem] at h
        simp only [Run.bind_def, Run.bind_result_error] at h
        rcases h with h | ⟨_, _, h⟩
        · simp [Run.emit] at h
        · exact absurd rfl (write_results_error _ _ _ _ h)
  · intro h
    simp [feature_selection, Run.bind, h, err_empty_features, Run.fail]
  · intro h
    have htr : (feature_selection E table fs_params).trace
        = (select_features E table fs_params).trace := by
      simp [feature_selection, Run.bind, h, err_empty_features, Run.fail]
    refine ⟨htr, ?_⟩
    intro ev hev
    rw [htr] at hev
    rcases select_features_trace E table fs_params ev hev with h | h | h | h | h | h <;>
      subst h <;> simp
  · intro halg hthr hsize har
    have hsel : select_features E table fs_params = ⟨[], .ok ∅⟩ := by
      have h1 : fs_params.algorithm ≠ moses.hc := by rw [halg]; decide
      have h2 : fs_params.algorithm = inc := halg
      rw [select_features, if_neg h1, if_pos h2,
        incremental_select_features_zero E table fs_params hsize hthr, har]
      rfl
    refine ⟨hsel, ?_⟩
    simp [feature_selection, Run.bind, hsel, err_empty_features, Run.fail]

theorem empty_selection_iff_witness :
    select_features (example_env ∅ 0) empty_table (example_params "data.csv" "inc" (-1) 0 [])
      = ⟨[], .ok ∅⟩ ∧
    feature_selection (example_env ∅ 0) empty_table (example_params "data.csv" "inc" (-1) 0 [])
      = ⟨[], .error .EmptySelection⟩ :=
  (empty_selection_iff (example_env ∅ 0) empty_table (example_params "data.csv" "inc" (-1) 0 [])).2.2
    rfl rfl rfl rfl

/-! ## Position of the target column (C5, C7) -/

/-- C7: when target_feature is at most 0 (the selectors first and last),
update_target_feature returns it unchanged, with an empty trace, whatever the
table is: the columns of the table are not looked at. -/
theorem first_last_pass_through (E : Env CTable Score) (table : Table)
    (fs_params : feature_selection_parameters) (h : fs_params.target_feature ≤ 0) :
    update_target_feature E table fs_params = ⟨[], .ok fs_params.target_feature⟩ := by
  simp [update_target_feature, h, Run.pure]

theorem first_last_pass_through_witness :
    (example_params "wide.csv" "mmi" 0 0 []).target_feature ≤ 0 ∧
    wide_full_table.get_arity = 5 ∧
    update_target_feature (example_env ∅ 0) (wide_full_table.filter {1, 3})
      (example_params "wide.csv" "mmi" 0 0 []) = ⟨[], .ok 0⟩ :=
  ⟨by decide, rfl,
   first_last_pass_through (example_env ∅ 0) (wide_full_table.filter {1, 3})
     (example_params "wide.csv" "mmi" 0 0 []) (by decide)⟩

theorem adjacent_find_rank (t : Int) (p : List Int) (a : Int) (hsorted : (a :: p).Sorted (· < ·))
    (hnot : t ∉ a :: p) (ha : a < t) (hgt : ∃ x ∈ a :: p, t < x) :
    adjacent_find (fun l r => decide (l < t) && decide (t < r)) (a :: p) + 1
        = ((a :: p).filter (fun x => decide (x < t))).length ∧
    ∃ l r, (a :: p).get? (adjacent_find (fun l r => decide (l < t) && decide (t < r)) (a :: p))
        = some l ∧
      (a :: p).get? (adjacent_find (fun l r => decide (l < t) && decide (t < r)) (a :: p) + 1)
        = some r ∧ l < t ∧ t < r := by
  induction p generalizing a with
  | nil =>
    obtain ⟨x, hx, hxt⟩ := hgt
    simp at hx
    omega
  | cons b rest ih =>
    have hs := List.sorted_cons.1 hsorted
    by_cases hb : t < b
    · have hrest : ∀ x ∈ b :: rest, ¬ x < t := by
        intro x hx
        have hs2 := List.sorted_cons.1 hs.2
        rcases List.mem_cons.1 hx with rfl | hx
        · omega
        · have := hs2.1 x hx
          omega
      have hfil : (b :: rest).filter (fun x => decide (x < t)) = [] := by
        rw [List.filter_eq_nil_iff]
        intro x hx
        simpa using hrest x hx
      refine ⟨?_, a, b, ?_, ?_, ha, hb⟩
      · rw [List.filter_cons_of_pos (by simpa using ha), hfil]
        simp [adjacent_find, ha, hb]
      · simp [adjacent_find, ha, hb]
      · simp [adjacent_find, ha, hb]
    · have hbt : b < t := by
        have : t ≠ b := fun h => hnot (by simp [h])
        omega
      have hgt2 : ∃ x ∈ b :: rest, t < x := by
        obtain ⟨x, hx, hxt⟩ := hgt
        rcases List.mem_cons.1 hx with rfl | hx
        · omega
        · exact ⟨x, hx, hxt⟩
      have hnot2 : t ∉ b :: rest := fun h => hnot (List.mem_cons_of_mem _ h)
      obtain ⟨h1, l, r, hl, hr, hlt, htr⟩ := ih b hs.2 hnot2 hbt hgt2
      have haf : adjacent_find (fun l r => decide (l < t) && decide (t < r)) (a :: b :: rest)
          = adjacent_find (fun l r => decide (l < t) && decide (t < r)) (b :: rest) + 1 := by
        simp [adjacent_find, hb]
      refine ⟨?_, l, r, ?_, ?_, hlt, htr⟩
      · rw [haf, List.filter_cons_of_pos (by simpa using ha), List.length_cons, h1]
      · rw [haf]
        simpa using hl
      · rw [haf]
        simpa using hr

theorem sorted_head_le (p : List Int) (front : Int) (hsorted : p.Sorted (· < ·))
    (hf : p.head? = some front) : ∀ x ∈ p, front ≤ x := by
  cases p with
  | nil => simp at hf
  | cons a p =>
    simp only [List.head?_cons, Option.some.injEq] at hf
    subst hf
    intro x hx
    rcases List.mem_cons.1 hx with rfl | hx
    · exact le_refl _
    · exact le_of_lt ((List.sorted_cons.1 hsorted).1 x hx)

theorem sorted_le_getLast (p : List Int) (back : Int) (hsorted : p.Sorted (· < ·))
    (hb : p.getLast? = some back) : ∀ x ∈ p, x ≤ back := by
  induction p with
  | nil => simp at hb
  | cons a p ih =>
    intro x hx
    have hs := List.sorted_cons.1 hsorted
    cases p with
    | nil =>
      simp at hb hx
      omega
    | cons b rest =>
      rw [List.getLast?_cons_cons] at hb
      rcases List.mem_cons.1 hx with rfl | hx
      · have h1 := hs.1 b (by simp)
        have h2 := ih hs.2 hb b (by simp)
        omega
      · exact ih hs.2 hb x hx

/-- C5: for an explicit target index t > 0 and a table whose input columns have
a non-empty, strictly increasing list p of positions in the data file, t not
among them, update_target_feature returns -1 when every entry of p is smaller
than t and otherwise the number of entries of p smaller than t; that number is
0 when t is below all entries, and when t lies between entries it is between 1
and len(p)-1 and adjacent_find stops at a pair (l, r) with l < t < r of
consecutive entries, before the end of p. -/
theorem target_remap_rank (E : Env CTable Score) (table : Table)
    (fs_params : feature_selection_parameters) (p : List Int)
    (ht : 0 < fs_params.target_feature)
    (hp : features_positions (E.header fs_params.input_file) table.itable.get_labels = .ok p)
    (hne : p ≠ []) (hsorted : p.Sorted (· < ·)) (hnot : fs_params.target_feature ∉ p) :
    ((∀ x ∈ p, x < fs_params.target_feature) →
      (update_target_feature E table fs_params).result = .ok (-1)) ∧
    (¬ (∀ x ∈ p, x < fs_params.target_feature) →
      (update_target_feature E table fs_params).result
        = .ok ((p.filter (fun x => decide (x < fs_params.target_feature))).length : Int)) ∧
    ((∀ x ∈ p, fs_params.target_feature < x) →
      (p.filter (fun x => decide (x < fs_params.target_feature))).length = 0) ∧
    ((∃ x ∈ p, x < fs_params.target_feature) → (∃ x ∈ p, fs_params.target_feature < x) →
      1 ≤ (p.filter (fun x => decide (x < fs_params.target_feature))).length ∧
      (p.filter (fun x => decide (x < fs_params.target_feature))).length ≤ p.length - 1 ∧
      ∃ l r,
        p.get? (adjacent_find (fun l r => decide (l < fs_params.target_feature) &&
          decide (fs_params.target_feature < r)) p) = some l ∧
        p.get? (adjacent_find (fun l r => decide (l < fs_params.target_feature) &&
          decide (fs_params.target_feature < r)) p + 1) = some r ∧
        l < fs_params.target_feature ∧ fs_params.target_feature < r) := by
  obtain ⟨a, q, rfl⟩ := List.exists_cons_of_ne_nil hne
  obtain ⟨back, hback⟩ : ∃ back, (a :: q).getLast? = some back :=
    ⟨_, List.getLast?_eq_getLast _ (by simp)⟩
  have hbmem : back ∈ a :: q := List.mem_of_getLast?_eq_some hback
  have hle := sorted_le_getLast _ _ hsorted hback
  have hge := sorted_head_le _ a hsorted rfl
  have hat : fs_params.target_feature ≠ a := fun h => hnot (by simp [h])
  have hbt : fs_params.target_feature ≠ back := fun h => hnot (h ▸ hbmem)
  have hrun : (update_target_feature E table fs_params).result
      = if fs_params.target_feature < a then .ok 0
        else if fs_params.target_feature > back then .ok (-1)
        else if adjacent_find (fun l r => decide (l < fs_params.target_feature) &&
            decide (fs_params.target_feature < r)) (a :: q) < (a :: q).length
          then .ok ((adjacent_find (fun l r => decide (l < fs_params.target_feature) &&
            decide (fs_params.target_feature < r)) (a :: q) : Int) + 1)
          else .error .out_of_range := by
    have h0 : ¬ fs_params.target_feature ≤ 0 := by omega
    simp only [update_target_feature, h0, if_false, Run.bind_def, Run.pure_def, Run.bind,
      find_features_positions, hp, List.head?_cons, hback]
    split
    · rfl
    · split
      · rfl
      · split <;> rfl
  have hmid : a < fs_params.target_feature → fs_params.target_feature < back →
      (update_target_feature E table fs_params).result
        = .ok (((a :: q).filter (fun x => decide (x < fs_params.target_feature))).length : Int) ∧
      ((a :: q).filter (fun x => decide (x < fs_params.target_feature))).length
        ≤ (a :: q).length - 1 ∧
      ∃ l r,
        (a :: q).get? (adjacent_find (fun l r => decide (l < fs_params.target_feature) &&
          decide (fs_params.target_feature < r)) (a :: q)) = some l ∧
        (a :: q).get? (adjacent_find (fun l r => decide (l < fs_params.target_feature) &&
          decide (fs_params.target_feature < r)) (a :: q) + 1) = some r ∧
        l < fs_params.target_feature ∧ fs_params.target_feature < r := by
    intro h1 h2
    obtain ⟨hrank, l, r, hl, hr, hlt, htr⟩ :=
      adjacent_find_rank fs_params.target_feature q a hsorted hnot h1 ⟨back, hbmem, h2⟩
    have hlen : adjacent_find (fun l r => decide (l < fs_params.target_feature) &&
        decide (fs_params.target_feature < r)) (a :: q) + 1 < (a :: q).length := by
      rcases List.get?_eq_some.1 hr with ⟨h, _⟩
      exact h
    refine ⟨?_, ?_, l, r, hl, hr, hlt, htr⟩
    · rw [hrun, if_neg (by omega), if_neg (by omega), if_pos (by omega), ← hrank]
      push_cast
      rfl
    · rw [← hrank]
      omega
  refine ⟨?_, ?_, ?_, ?_⟩
  · intro hall
    have h1 := hall a (by simp)
    have h2 := hall back hbmem
    rw [hrun, if_neg (by omega), if_pos (by omega)]
  · intro hnall
    by_cases h1 : fs_params.target_feature < a
    · have hfil : (a :: q).filter (fun x => decide (x < fs_params.target_feature)) = [] := by
        rw [List.filter_eq_nil_iff]
        intro x hx
        have := hge x hx
        simp only [decide_eq_true_eq]
        omega
      rw [hrun, if_pos h1, hfil]
      rfl
    · have h2 : fs_params.target_feature < back := by
        by_contra hcon
        apply hnall
        intro x hx
        have := hle x hx
        omega
      exact (hmid (by omega) h2).1
  · intro hall
    rw [List.length_eq_zero, List.filter_eq_nil_iff]
    intro x hx
    have := hall x hx
    simp only [decide_eq_true_eq]
    omega
  · rintro ⟨x, hx, hxt⟩ ⟨y, hy, hty⟩
    have h1 : a < fs_params.target_feature := by
      have := hge x hx
      omega
    have h2 : fs_params.target_feature < back := by
      have := hle y hy
      omega
    refine ⟨?_, (hmid h1 h2).2⟩
    rw [List.filter_cons_of_pos (by simpa using h1)]
    simp

theorem target_remap_rank_witness :
    (update_target_feature (example_env ∅ 0) wide_table
      (example_params "wide.csv" "mmi" 2 1 [])).result = .ok 1 :=
  (target_remap_rank (example_env ∅ 0) wide_table
    (example_params "wide.csv" "mmi" 2 1 []) [0, 4]
    (by decide) rfl (by decide) (by decide) (by decide)).2.1 (by decide)

/-! ## Initial instance of the local search (C9) -/

theorem set_initial_bits_spec (labels fs : List String) (res : Instance)
    (hfit : labels.length ≤ res.length) :
    ∃ out, set_initial_bits labels fs res = .ok out ∧ out.length = res.length ∧
      ∀ i, out[i]? = some true ↔
        (res[i]? = some true ∨ ∃ n ∈ fs, n ∈ labels ∧ labels.indexOf n = i) := by
  induction fs generalizing res with
  | nil => exact ⟨res, rfl, rfl, by simp⟩
  | cons f fs ih =>
    by_cases hf : labels.indexOf f < labels.length
    · have hin : labels.indexOf f < res.length := by omega
      obtain ⟨out, hout, hlen, hbits⟩ := ih (res.set (labels.indexOf f) true)
        (by rw [List.length_set]; exact hfit)
      refine ⟨out, ?_, ?_, ?_⟩
      · simp only [set_initial_bits, hf, hin, if_true]
        exact hout
      · rw [hlen, List.length_set]
      · intro i
        rw [hbits i, List.getElem?_set]
        have hmem : f ∈ labels := List.indexOf_lt_length.1 hf
        constructor
        · rintro (h | ⟨n, hn, hnl, hni⟩)
          · by_cases hi : labels.indexOf f = i
            · exact Or.inr ⟨f, by simp, hmem, hi⟩
            · rw [if_neg hi] at h
              exact Or.inl h
          · exact Or.inr ⟨n, List.mem_cons_of_mem _ hn, hnl, hni⟩
        · rintro (h | ⟨n, hn, hnl, hni⟩)
          · by_cases hi : labels.indexOf f = i
            · left
              rw [if_pos hi, if_pos hin]
            · left
              rw [if_neg hi]
              exact h
          · rcases List.mem_cons.1 hn with rfl | hn
            · left
              rw [if_pos hni, if_pos hin]
            · exact Or.inr ⟨n, hn, hnl, hni⟩
    · obtain ⟨out, hout, hlen, hbits⟩ := ih res hfit
      refine ⟨out, ?_, hlen, ?_⟩
      · simp only [set_initial_bits, hf, if_false]
        exact hout
      · intro i
        rw [hbits i]
        have hmem : f ∉ labels := fun h => hf (List.indexOf_lt_length.2 h)
        constructor
        · rintro (h | ⟨n, hn, hnl, hni⟩)
          · exact Or.inl h
          · exact Or.inr ⟨n, List.mem_cons_of_mem _ hn, hnl, hni⟩
        · rintro (h | ⟨n, hn, hnl, hni⟩)
          · exact Or.inl h
          · rcases List.mem_cons.1 hn with rfl | hn
            · exact absurd hnl hmem
            · exact Or.inr ⟨n, hn, hnl, hni⟩

theorem set_initial_bits_filter (labels fs : List String) (res : Instance) :
    set_initial_bits labels (fs.filter (fun n => decide (n ∈ labels))) res
      = set_initial_bits labels fs res := by
  induction fs generalizing res with
  | nil => rfl
  | cons f fs ih =>
    by_cases hf : f ∈ labels
    · rw [List.filter_cons_of_pos (by simpa using hf)]
      simp only [set_initial_bits]
      split
      · split
        · exact ih _
        · rfl
      · exact ih _
    · rw [List.filter_cons_of_neg (by simpa using hf)]
      have hidx : ¬ labels.indexOf f < labels.length := fun h => hf (List.indexOf_lt_length.1 h)
      simp only [set_initial_bits, hidx, if_false]
      exact ih _

theorem set_initial_bits_none (labels fs : List String) (res : Instance)
    (hnone : ∀ n ∈ fs, n ∉ labels) : set_initial_bits labels fs res = .ok res := by
  induction fs with
  | nil => rfl
  | cons f fs ih =>
    have hidx : ¬ labels.indexOf f < labels.length :=
      fun h => hnone f (by simp) (List.indexOf_lt_length.1 h)
    simp only [set_initial_bits, hidx, if_false]
    exact ih (fun n hn => hnone n (List.mem_cons_of_mem _ hn))

theorem initial_instance_result (E : Env CTable Score) (fs_params : feature_selection_parameters)
    (fields : field_set) :
    (initial_instance E fs_params fields).result
      = set_initial_bits
          (E.readInputLabels fs_params.input_file fs_params.target_feature
            fs_params.ignore_features)
          fs_params.hc_initial_features (List.replicate fields.packed_width false) := by
  simp [initial_instance, Run.bind, Run.emit, Run.lift]

/-- C9: for the labels read from the input file and a field set with a bit for
each of them, initial_instance returns, for every list hc_initial_features, an
instance of the packed width of the field set whose bit i is set exactly when i
is the index of the first occurrence in the labels of a name of
hc_initial_features; the names that are not among the labels change nothing
(dropping them gives the same result), and when no name is among the labels the
result is the all-zero instance. -/
theorem unresolved_initial_features_skipped (E : Env CTable Score)
    (fs_params : feature_selection_parameters) (fields : field_set)
    (hfit : (E.readInputLabels fs_params.input_file fs_params.target_feature
      fs_params.ignore_features).length ≤ fields.n_bits) :
    ∃ inst : Instance,
      (initial_instance E fs_params fields).result = .ok inst ∧
      inst.length = fields.packed_width ∧
      (∀ i, inst[i]? = some true ↔
        ∃ n ∈ fs_params.hc_initial_features,
          n ∈ E.readInputLabels fs_params.input_file fs_params.target_feature
            fs_params.ignore_features ∧
          (E.readInputLabels fs_params.input_file fs_params.target_feature
            fs_params.ignore_features).indexOf n = i) ∧
      (initial_instance E
        { fs_params with
          hc_initial_features := fs_params.hc_initial_features.filter (fun n =>
            decide (n ∈ E.readInputLabels fs_params.input_file fs_params.target_feature
              fs_params.ignore_features)) } fields).result = .ok inst ∧
      ((∀ n ∈ fs_params.hc_initial_features,
          n ∉ E.readInputLabels fs_params.input_file fs_params.target_feature
            fs_params.ignore_features) →
        inst = List.replicate fields.packed_width false) := by
  obtain ⟨out, hout, hlen, hbits⟩ := set_initial_bits_spec
    (E.readInputLabels fs_params.input_file fs_params.target_feature fs_params.ignore_features)
    fs_params.hc_initial_features (List.replicate fields.packed_width false)
    (by simpa [field_set.packed_width] using hfit)
  refine ⟨out, ?_, ?_, ?_, ?_, ?_⟩
  · rw [initial_instance_result, hout]
  · simpa using hlen
  · intro i
    rw [hbits i]
    constructor
    · rintro (h | h)
      · rw [List.getElem?_replicate] at h
        split at h <;> simp at h
      · exact h
    · exact Or.inr
  · rw [initial_instance_result]
    simp only
    rw [set_initial_bits_filter, hout]
  · intro hnone
    rw [set_initial_bits_none _ _ _ hnone] at hout
    injection hout with hout
    exact hout.symm

theorem unresolved_initial_features_skipped_witness :
    ∃ inst : Instance,
      (initial_instance (example_env ∅ 0) (example_hc_params ["col2", "nope", "col0"]) ⟨4⟩).result
        = .ok inst ∧
      inst = [true, false, true, false] := by
  obtain ⟨inst, h, -⟩ := unresolved_initial_features_skipped (example_env ∅ 0)
    (example_hc_params ["col2", "nope", "col0"]) ⟨4⟩ (by decide)
  refine ⟨inst, h, ?_⟩
  have h2 : (initial_instance (example_env ∅ 0)
      (example_hc_params ["col2", "nope", "col0"]) ⟨4⟩).result
      = .ok [true, false, true, false] := rfl
  rw [h2] at h
  injection h with h
  exact h.symm

/-! ## Best instance of the local search (C10) -/

theorem moses_select_features_result (E : Env CTable Score) (table : Table) (fields : field_set)
    (deme : instance_set Score) (init_inst : Instance) (optimize : Optimize Score)
    (scorer : Instance → Score) (fs_params : feature_selection_parameters) :
    (moses_select_features E table fields deme init_inst optimize scorer fs_params).result
      = if (optimize deme init_inst scorer fs_params.max_evals).2.1 > 0 then
          match E.sort_greater (optimize deme init_inst scorer fs_params.max_evals).1 with
          | [] => .error .out_of_range
          | si :: _ => .ok (get_feature_set fields si.1)
        else .ok (get_feature_set fields init_inst) := by
  simp only [moses_select_features, Run.bind_def, Run.pure_def]
  by_cases h : (optimize deme init_inst scorer fs_params.max_evals).2.1 > 0
  · rw [if_pos h, if_pos h]
    cases E.sort_greater (optimize deme init_inst scorer fs_params.max_evals).1 <;>
      simp [Run.bind, Run.emit, Run.fail, Run.pure]
  · rw [if_neg h, if_neg h]
    simp [Run.bind, Run.emit, Run.pure]

/-- C10: moses_select_features decodes the initial instance when the optimiser
reports zero evaluations; otherwise it decodes the first instance of the deme
sorted in descending order, which is an instance of the deme whose score is
greater than or equal to the score of every scored instance of the deme. The
sort is any function meeting the contract of boost::sort (a permutation of the
deme, in descending order of the scores). -/
theorem best_instance_decoded [Preorder Score] (E : Env CTable Score) (table : Table)
    (fields : field_set) (deme : instance_set Score) (init_inst : Instance)
    (optimize : Optimize Score) (scorer : Instance → Score)
    (fs_params : feature_selection_parameters)
    (hperm : ∀ d, (E.sort_greater d).Perm d)
    (hsorted : ∀ d, (E.sort_greater d).Sorted (fun a b => a.2 ≥ b.2)) :
    ((optimize deme init_inst scorer fs_params.max_evals).2.1 = 0 →
      (moses_select_features E table fields deme init_inst optimize scorer fs_params).result
        = .ok (get_feature_set fields init_inst)) ∧
    (0 < (optimize deme init_inst scorer fs_params.max_evals).2.1 →
      (optimize deme init_inst scorer fs_params.max_evals).1 ≠ [] →
      ∃ best ∈ (optimize deme init_inst scorer fs_params.max_evals).1,
        (E.sort_greater (optimize deme init_inst scorer fs_params.max_evals).1).head? = some best ∧
        (moses_select_features E table fields deme init_inst optimize scorer fs_params).result
          = .ok (get_feature_set fields best.1) ∧
        ∀ x ∈ (optimize deme init_inst scorer fs_params.max_evals).1, x.2 ≤ best.2) := by
  constructor
  · intro h0
    rw [moses_select_features_result, if_neg (by omega)]
  · intro hpos hne
    have hp := hperm (optimize deme init_inst scorer fs_params.max_evals).1
    have hs := hsorted (optimize deme init_inst scorer fs_params.max_evals).1
    cases hsort : E.sort_greater (optimize deme init_inst scorer fs_params.max_evals).1 with
    | nil =>
      rw [hsort] at hp
      exact absurd hp.symm.eq_nil hne
    | cons best rest =>
      rw [hsort] at hp hs
      refine ⟨best, hp.subset (by simp), rfl, ?_, ?_⟩
      · rw [moses_select_features_result, if_pos hpos, hsort]
      · intro x hx
        rcases List.mem_cons.1 (hp.symm.subset hx) with rfl | hx
        · exact le_refl _
        · exact (List.sorted_cons.1 hs).1 x hx

theorem sort_by_score_perm (d : instance_set Nat) : (sort_by_score d).Perm d :=
  List.perm_insertionSort _ d

theorem sort_by_score_sorted (d : instance_set Nat) :
    (sort_by_score d).Sorted (fun a b => a.2 ≥ b.2) := by
  haveI : IsTotal (Instance × Nat) (fun a b => a.2 ≥ b.2) := ⟨fun a b => Nat.le_total b.2 a.2⟩
  haveI : IsTrans (Instance × Nat) (fun a b => a.2 ≥ b.2) :=
    ⟨fun a b c hab hbc => Nat.le_trans hbc hab⟩
  exact List.sorted_insertionSort _ d

theorem best_instance_decoded_witness :
    (moses_select_features (example_env ∅ 2) example_table ⟨4⟩ example_deme
        [false, false, false, false] ((example_env ∅ 2).hill_climbing ⟨"hc", .finite 20,
          .finite 1, 4, .finite 0, ⟨true, false, false, .finite 1⟩⟩)
        (fun _ => 0) (example_hc_params [])).result = .ok {1, 2} ∧
    (moses_select_features (example_env ∅ 0) example_table ⟨4⟩ example_deme
        [true, false, false, true] ((example_env ∅ 0).hill_climbing ⟨"hc", .finite 20,
          .finite 1, 4, .finite 0, ⟨true, false, false, .finite 1⟩⟩)
        (fun _ => 0) (example_hc_params [])).result = .ok {0, 3} := by
  have h1 := (best_instance_decoded (example_env ∅ 2) example_table ⟨4⟩ example_deme
    [false, false, false, false] ((example_env ∅ 2).hill_climbing ⟨"hc", .finite 20,
      .finite 1, 4, .finite 0, ⟨true, false, false, .finite 1⟩⟩)
    (fun _ => 0) (example_hc_params []) sort_by_score_perm sort_by_score_sorted).2
    (by decide) (by decide)
  have h0 := (best_instance_decoded (example_env ∅ 0) example_table ⟨4⟩ example_deme
    [true, false, false, true] ((example_env ∅ 0).hill_climbing ⟨"hc", .finite 20,
      .finite 1, 4, .finite 0, ⟨true, false, false, .finite 1⟩⟩)
    (fun _ => 0) (example_hc_params []) sort_by_score_perm sort_by_score_sorted).1 rfl
  obtain ⟨best, -, hhead, hres, -⟩ := h1
  have hb : best = ([false, true, true, false], 3) := by
    have : (sort_by_score example_deme).head? = some ([false, true, true, false], 3) := by
      decide
    have h2 : some best = some ([false, true, true, false], 3) := hhead.symm.trans this
    injection h2
  subst hb
  refine ⟨hres.trans ?_, h0.trans ?_⟩
  · have : get_feature_set ⟨4⟩ [false, true, true, false] = {1, 2} := by decide
    rw [this]
  · have : get_feature_set ⟨4⟩ [true, false, false, true] = {0, 3} := by decide
    rw [this]

/-! ## Forced features: names that are already selected (C6) -/

theorem features_positions_of_mem (header names : List String)
    (hall : ∀ n ∈ names, n ∈ header) :
    features_positions header names = .ok (names.map (fun n => (header.indexOf n : Int))) := by
  induction names with
  | nil => rfl
  | cons f fs ih =>
    have hf : header.indexOf f < header.length := List.indexOf_lt_length.2 (hall f (by simp))
    simp only [features_positions, hf, if_true, ih (fun n hn => hall n (List.mem_cons_of_mem _ hn)),
      List.map_cons]

theorem features_positions_ok (header names : List String) (ps : List Int)
    (h : features_positions header names = .ok ps) :
    (∀ n ∈ names, n ∈ header) ∧ ps = names.map (fun n => (header.indexOf n : Int)) := by
  induction names generalizing ps with
  | nil =>
    simp only [features_positions, Except.ok.injEq] at h
    simp [← h]
  | cons f fs ih =>
    simp only [features_positions] at h
    split at h
    · rename_i hf
      split at h
      · rename_i qs hq
        obtain ⟨h1, h2⟩ := ih qs hq
        injection h with h
        refine ⟨?_, ?_⟩
        · intro n hn
          rcases List.mem_cons.1 hn with rfl | hn
          · exact List.indexOf_lt_length.1 hf
          · exact h1 n hn
        · rw [← h, h2, List.map_cons]
      · simp at h
    · simp at h

theorem features_positions_missing (header names : List String)
    (hmiss : ∃ n ∈ names, n ∉ header) :
    ∃ m, features_positions header names = .error (.MissingForcedFeature m) ∧ m ∈ names ∧
      m ∉ header := by
  induction names with
  | nil => simp at hmiss
  | cons f fs ih =>
    by_cases hf : f ∈ header
    · obtain ⟨n, hn, hnh⟩ := hmiss
      have hn2 : n ∈ fs := by
        rcases List.mem_cons.1 hn with rfl | hn
        · exact absurd hf hnh
        · exact hn
      obtain ⟨m, hm, hmem, hmh⟩ := ih ⟨n, hn2, hnh⟩
      refine ⟨m, ?_, List.mem_cons_of_mem _ hmem, hmh⟩
      simp only [features_positions, List.indexOf_lt_length.2 hf, if_true, hm]
    · refine ⟨f, ?_, by simp, hf⟩
      have : ¬ header.indexOf f < header.length := fun h => hf (List.indexOf_lt_length.1 h)
      simp only [features_positions, this, if_false]

theorem filter_not_selected_insert (labels pre post : List String) (n : String)
    (hn : n ∈ labels) :
    (pre ++ n :: post).filter (fun fn => decide (fn ∉ labels))
      = (pre ++ post).filter (fun fn => decide (fn ∉ labels)) := by
  rw [List.filter_append, List.filter_append, List.filter_cons_of_neg (by simpa using hn)]

theorem insert_forced_nil (fns : ITable) (lpos ridx : Nat) (rrest : List Int) (it : ITable) :
    insert_forced fns [] lpos ridx rrest it = .ok it := rfl

/-- C6: when the name n is already a label of the input columns of the filtered
table, add_force_features with n put anywhere in the force list is the same run
(same events, same table: column order, labels, contents and output column) as
without n; and when every forced name is already a label of the table, whose
labels are all in the header of the data file, the table is returned
unchanged. -/
theorem reconstruction_idempotent (E : Env CTable Score) (table : Table)
    (fs_params : feature_selection_parameters) (n : String) (pre post : List String)
    (hn : n ∈ table.itable.get_labels) :
    add_force_features E table { fs_params with force_features_str := pre ++ n :: post }
      = add_force_features E table { fs_params with force_features_str := pre ++ post } ∧
    ((∀ m ∈ fs_params.force_features_str, m ∈ table.itable.get_labels) →
      (∀ l ∈ table.itable.get_labels, l ∈ E.header fs_params.input_file) →
      (add_force_features E table fs_params).result = .ok table) := by
  constructor
  · simp only [add_force_features, filter_not_selected_insert _ pre post n hn]
  · intro hall hlab
    have hfil : fs_params.force_features_str.filter
        (fun fn => decide (fn ∉ table.itable.get_labels)) = [] := by
      rw [List.filter_eq_nil_iff]
      intro m hm
      simpa using hall m hm
    simp only [add_force_features, hfil, Run.bind_def, Run.pure_def, Run.bind,
      find_features_positions, features_positions, List.insertionSort, dataFileArity,
      loadHeader, loadITable, features_positions_of_mem _ _ hlab, Run.lift, insert_forced_nil,
      Run.pure]

theorem reconstruction_idempotent_witness :
    add_force_features (example_env ∅ 0) (example_table.filter {0, 2})
        (example_params "data.csv" "mmi" (-1) 2 (["col3"] ++ "col2" :: ["col0"]))
      = add_force_features (example_env ∅ 0) (example_table.filter {0, 2})
        (example_params "data.csv" "mmi" (-1) 2 (["col3"] ++ ["col0"])) :=
  (reconstruction_idempotent (example_env ∅ 0) (example_table.filter {0, 2})
    (example_params "data.csv" "mmi" (-1) 2 []) "col2" ["col3"] ["col0"] (by decide)).1

/-! ## Forced features that are missing from the data file (C8) -/

theorem add_force_features_unfold (E : Env CTable Score) (table : Table)
    (fs_params : feature_selection_parameters) :
    add_force_features E table fs_params =
      match features_positions (E.header fs_params.input_file)
          (fs_params.force_features_str.filter
            (fun fn => decide (fn ∉ table.itable.get_labels))) with
      | .error e =>
        ⟨[.find_features_positions fs_params.input_file
            (fs_params.force_features_str.filter
              (fun fn => decide (fn ∉ table.itable.get_labels)))], .error e⟩
      | .ok ps =>
        match features_positions (E.header fs_params.input_file) table.itable.get_labels with
        | .error e =>
          ⟨[.find_features_positions fs_params.input_file
              (fs_params.force_features_str.filter
                (fun fn => decide (fn ∉ table.itable.get_labels))),
            .dataFileArity fs_params.input_file, .loadHeader fs_params.input_file,
            .loadITable fs_params.input_file
              (set_difference (irange (((E.file fs_params.input_file).length : Int) - 1 + 1))
                (ps.insertionSort (· ≤ ·))),
            .find_features_positions fs_params.input_file table.itable.get_labels], .error e⟩
        | .ok s =>
          ⟨[.find_features_positions fs_params.input_file
              (fs_params.force_features_str.filter
                (fun fn => decide (fn ∉ table.itable.get_labels))),
            .dataFileArity fs_params.input_file, .loadHeader fs_params.input_file,
            .loadITable fs_params.input_file
              (set_difference (irange (((E.file fs_params.input_file).length : Int) - 1 + 1))
                (ps.insertionSort (· ≤ ·))),
            .find_features_positions fs_params.input_file table.itable.get_labels],
           match insert_forced
              (((E.file fs_params.input_file).enum.filter (fun ic => decide ((ic.1 : Int) ∉
                set_difference (irange (((E.file fs_params.input_file).length : Int) - 1 + 1))
                  (ps.insertionSort (· ≤ ·))))).map Prod.snd)
              (ps.insertionSort (· ≤ ·)) 0 0 s table.itable with
           | .error e => .error e
           | .ok it => .ok { itable := it, otable := table.otable }⟩ := by
  unfold add_force_features
  simp only [Run.bind_def, Run.pure_def, find_features_positions, dataFileArity, loadHeader,
    loadITable, Run.lift]
  cases features_positions (E.header fs_params.input_file)
    (fs_params.force_features_str.filter (fun fn => decide (fn ∉ table.itable.get_labels))) with
  | error e => rfl
  | ok ps =>
    cases h2 : features_positions (E.header fs_params.input_file) table.itable.get_labels with
    | error e => simp only [Run.bind, h2, List.cons_append, List.nil_append]
    | ok s =>
      simp only [Run.bind, h2, List.cons_append, List.nil_append]
      cases insert_forced
        (((E.file fs_params.input_file).enum.filter (fun ic => decide ((ic.1 : Int) ∉
          set_difference (irange (((E.file fs_params.input_file).length : Int) - 1 + 1))
            (ps.insertionSort (· ≤ ·))))).map Prod.snd)
        (ps.insertionSort (· ≤ ·)) 0 0 s table.itable with
      | error e => rfl
      | ok it => rfl

theorem add_force_features_missing (E : Env CTable Score) (table : Table)
    (fs_params : feature_selection_parameters)
    (hmiss : ∃ n ∈ fs_params.force_features_str, n ∉ E.header fs_params.input_file) :
    ∃ m, (add_force_features E table fs_params).result = .error (.MissingForcedFeature m) ∧
      m ∉ E.header fs_params.input_file ∧
      ∀ ev ∈ (add_force_features E table fs_params).trace,
        (∀ t tfp, ev ≠ .ostreamTable t tfp) ∧ (∀ f t tfp, ev ≠ .saveTable f t tfp) := by
  have hlast : ∃ k, (∃ n, (add_force_features E table fs_params).result = .error k ∧
        k = .MissingForcedFeature n ∧ n ∉ E.header fs_params.input_file) ∧
      ∀ ev ∈ (add_force_features E table fs_params).trace,
        (∀ t tfp, ev ≠ .ostreamTable t tfp) ∧ (∀ f t tfp, ev ≠ .saveTable f t tfp) := by
    rw [add_force_features_unfold]
    obtain ⟨n, hn, hnh⟩ := hmiss
    cases h1 : features_positions (E.header fs_params.input_file)
        (fs_params.force_features_str.filter
          (fun fn => decide (fn ∉ table.itable.get_labels))) with
    | error e =>
      by_cases hex : ∃ k ∈ fs_params.force_features_str.filter
          (fun fn => decide (fn ∉ table.itable.get_labels)), k ∉ E.header fs_params.input_file
      · obtain ⟨m, hm, -, hmh⟩ := features_positions_missing _ _ hex
        rw [hm] at h1
        injection h1 with h1
        subst h1
        exact ⟨_, ⟨m, rfl, rfl, hmh⟩, by simp⟩
      · have hall : ∀ k ∈ fs_params.force_features_str.filter
            (fun fn => decide (fn ∉ table.itable.get_labels)),
            k ∈ E.header fs_params.input_file := by
          intro k hk
          by_contra hcon
          exact hex ⟨k, hk, hcon⟩
        rw [features_positions_of_mem _ _ hall] at h1
        simp at h1
    | ok ps =>
      have hsel : n ∈ table.itable.get_labels := by
        by_contra hsel
        have hall := (features_positions_ok _ _ _ h1).1 n
          (List.mem_filter.2 ⟨hn, by simpa using hsel⟩)
        exact hnh hall
      obtain ⟨m2, hm2, -, hm2h⟩ := features_positions_missing (E.header fs_params.input_file)
        table.itable.get_labels ⟨n, hsel, hnh⟩
      simp only [hm2]
      exact ⟨_, ⟨m2, rfl, rfl, hm2h⟩, by simp⟩
  obtain ⟨k, ⟨n, h1, rfl, h2⟩, h3⟩ := hlast
  exact ⟨n, h1, h2, h3⟩

/-- C8, as the code has it: when the force list names a feature that is not in
the header of the data file, feature_selection first runs the selection
strategy; if the strategy fails the run fails with the error of the strategy,
if it returns the empty set the run fails with EmptySelection, and only when it
returns a non-empty set is the table filtered and the missing feature then
detected, during the reconstruction, which fails with MissingForcedFeature
before anything is written. -/
theorem missing_forced_feature_detected_late (E : Env CTable Score) (table : Table)
    (fs_params : feature_selection_parameters)
    (hmiss : ∃ n ∈ fs_params.force_features_str, n ∉ E.header fs_params.input_file) :
    (∀ e, (select_features E table fs_params).result = .error e →
      feature_selection E table fs_params = ⟨(select_features E table fs_params).trace, .error e⟩) ∧
    ((select_features E table fs_params).result = .ok ∅ →
      feature_selection E table fs_params
        = ⟨(select_features E table fs_params).trace, .error .EmptySelection⟩) ∧
    (∀ s, (select_features E table fs_params).result = .ok s → s ≠ ∅ →
      ∃ m rest, (feature_selection E table fs_params).result = .error (.MissingForcedFeature m) ∧
        m ∉ E.header fs_params.input_file ∧
        (feature_selection E table fs_params).trace
          = (select_features E table fs_params).trace ++ .filter s :: rest ∧
        ∀ ev ∈ rest, (∀ t tfp, ev ≠ .ostreamTable t tfp) ∧ (∀ f t tfp, ev ≠ .saveTable f t tfp)) := by
  refine ⟨?_, ?_, ?_⟩
  · intro e he
    simp [feature_selection, Run.bind, he]
  · intro he
    simp [feature_selection, Run.bind, he, err_empty_features, Run.fail]
  · intro s hs hne
    obtain ⟨m, hm, hmh, hev⟩ := add_force_features_missing E (table.filter s) fs_params hmiss
    refine ⟨m, (add_force_features E (table.filter s) fs_params).trace, ?_, hmh, ?_, hev⟩
    · simp [feature_selection, Run.bind, hs, hne, write_results, Run.emit, hm]
    · simp [feature_selection, Run.bind, hs, hne, write_results, Run.emit, hm]

theorem missing_forced_feature_detected_late_witness :
    ∃ m rest, (feature_selection (example_env {0} 0) example_table
        (example_params "data.csv" "mmi" (-1) 1 ["nope"])).result
          = .error (.MissingForcedFeature m) ∧
      (feature_selection (example_env {0} 0) example_table
        (example_params "data.csv" "mmi" (-1) 1 ["nope"])).trace
          = [.compress, .max_mi_selection] ++ .filter {0} :: rest := by
  obtain ⟨m, rest, h1, -, h2, -⟩ :=
    (missing_forced_feature_detected_late (example_env {0} 0) example_table
      (example_params "data.csv" "mmi" (-1) 1 ["nope"]) ⟨"nope", by decide, by decide⟩).2.2
      {0} rfl (by decide)
  exact ⟨m, rest, h1, h2⟩

/-- C8, counterexample: with the forced name "nope", which is not in the header
of the data file, the strategy runs first (the table is compressed and the
max-MI selection called) and the outcome depends on what it returns:
MissingForcedFeature when it selects column 0, EmptySelection when it selects
nothing. -/
theorem missing_forced_feature_not_eager :
    "nope" ∈ (example_params "data.csv" "mmi" (-1) 1 ["nope"]).force_features_str ∧
    "nope" ∉ (example_env {0} 0).header "data.csv" ∧
    (example_env ∅ 0).header "data.csv" = (example_env {0} 0).header "data.csv" ∧
    feature_selection (example_env {0} 0) example_table
        (example_params "data.csv" "mmi" (-1) 1 ["nope"])
      = ⟨[.compress, .max_mi_selection, .filter {0},
          .find_features_positions "data.csv" ["nope"]],
         .error (.MissingForcedFeature "nope")⟩ ∧
    feature_selection (example_env ∅ 0) example_table
        (example_params "data.csv" "mmi" (-1) 1 ["nope"])
      = ⟨[.compress, .max_mi_selection], .error .EmptySelection⟩ := by
  refine ⟨by decide, by decide, rfl, ?_, ?_⟩
  · apply Run.ext
    · decide
    · rfl
  · apply Run.ext
    · decide
    · rfl

/-! ## Forced features: the merge of the columns (C4) -/

theorem advance_rit_eq (lit : Int) (ridx : Nat) (S : List (Int × Column)) :
    advance_rit lit ridx (S.map Prod.fst)
      = (ridx + (S.takeWhile (fun rc => decide (lit > rc.1))).length,
         (S.dropWhile (fun rc => decide (lit > rc.1))).map Prod.fst) := by
  induction S generalizing ridx with
  | nil => rfl
  | cons a S ih =>
    by_cases h : lit > a.1
    · simp only [List.map_cons, advance_rit, h, if_true, ih, List.takeWhile_cons, decide_True,
        List.length_cons, List.dropWhile_cons]
      congr 1
      omega
    · simp only [List.map_cons, advance_rit, h, if_false, List.takeWhile_cons, decide_False,
        List.length_nil, List.dropWhile_cons, Nat.add_zero]
      simp

theorem insert_col_at_length (A B : ITable) (clab : String) (col : List vertex) :
    ITable.insert_col (A ++ B) clab col (A.length : Int) = .ok (A ++ ⟨clab, col⟩ :: B) := by
  have h0 : (0 : Int) ≤ (A.length : Int) := Int.natCast_nonneg _
  have h1 : (A.length : Int).toNat ≤ (A ++ B).length := by simp
  simp only [ITable.insert_col, h0, h1, if_true, Int.toNat_ofNat, List.take_left', List.drop_left']
  simp

theorem insert_col_at_end (A : ITable) (clab : String) (col : List vertex) :
    ITable.insert_col A clab col (-1) = .ok (A ++ [⟨clab, col⟩]) := by
  simp [ITable.insert_col]

theorem get_col_of_drop (fns : ITable) (lpos : Nat) (d : Column) (rest : List Column)
    (h : fns.drop lpos = d :: rest) : fns.get_col lpos = .ok (d.label, d.data) := by
  have : fns.get? lpos = some d := by
    have h2 := List.head?_drop fns lpos
    rw [h] at h2
    simpa using h2.symm
  unfold ITable.get_col
  rw [this]

theorem insert_forced_eq_merge (fns : ITable) (Fz S : List (Int × Column)) (lpos ridx : Nat)
    (pre : ITable) (hF : fns.drop lpos = Fz.map Prod.snd) (hpre : pre.length = ridx + lpos) :
    insert_forced fns (Fz.map Prod.fst) lpos ridx (S.map Prod.fst) (pre ++ S.map Prod.snd)
      = .ok (pre ++ (merge_by_position S Fz).map Prod.snd) := by
  induction Fz generalizing S lpos ridx pre with
  | nil => simp [insert_forced, merge_by_position]
  | cons ld Fz ih =>
    obtain ⟨l, d⟩ := ld
    have hget := get_col_of_drop fns lpos d (Fz.map Prod.snd) (by simpa using hF)
    have hdrop : fns.drop (lpos + 1) = Fz.map Prod.snd := by
      rw [← List.drop_drop, Nat.add_comm] at *
      have := congrArg List.tail hF
      simpa [List.tail_drop, List.drop_drop, Nat.add_comm] using this
    have hsplit : S.map Prod.snd
        = (S.takeWhile (fun rc => decide (l > rc.1))).map Prod.snd ++
          (S.dropWhile (fun rc => decide (l > rc.1))).map Prod.snd := by
      rw [← List.map_append, List.takeWhile_append_dropWhile]
    have hins : ITable.insert_col (pre ++ S.map Prod.snd) d.label d.data
        (if (S.dropWhile (fun rc => decide (l > rc.1))).map Prod.fst ≠ [] then
          ((ridx + (S.takeWhile (fun rc => decide (l > rc.1))).length : Nat) : Int) + (lpos : Int)
          else -1)
        = .ok ((pre ++ (S.takeWhile (fun rc => decide (l > rc.1))).map Prod.snd ++ [d]) ++
            (S.dropWhile (fun rc => decide (l > rc.1))).map Prod.snd) := by
      split
      · have hlen : ((ridx + (S.takeWhile (fun rc => decide (l > rc.1))).length : Nat) : Int)
            + (lpos : Int)
            = ((pre ++ (S.takeWhile (fun rc => decide (l > rc.1))).map Prod.snd).length : Int) := by
          simp only [List.length_append, List.length_map, hpre]
          push_cast
          omega
        rw [hlen]
        conv_lhs => rw [hsplit, ← List.append_assoc]
        rw [insert_col_at_length]
        simp
      · rename_i hnil
        have hnil2 : S.dropWhile (fun rc => decide (l > rc.1)) = [] := by
          simpa using hnil
        rw [insert_col_at_end]
        conv_lhs => rw [hsplit]
        simp [hnil2]
    simp only [List.map_cons, insert_forced, hget, advance_rit_eq, hins, merge_by_position]
    rw [ih (S.dropWhile (fun rc => decide (l > rc.1))) (lpos + 1)
      (ridx + (S.takeWhile (fun rc => decide (l > rc.1))).length)
      (pre ++ (S.takeWhile (fun rc => decide (l > rc.1))).map Prod.snd ++ [d]) hdrop
      (by simp only [List.length_append, List.length_map, hpre, List.length_singleton]; omega)]
    simp

theorem merge_by_position_perm (S F : List (Int × Column)) :
    (merge_by_position S F).Perm (S ++ F) := by
  induction F generalizing S with
  | nil => simp [merge_by_position]
  | cons ld F ih =>
    obtain ⟨l, d⟩ := ld
    simp only [merge_by_position]
    have h1 := ih (S.dropWhile (fun rc => decide (l > rc.1)))
    have h2 : (S.takeWhile (fun rc => decide (l > rc.1)) ++
        (l, d) :: merge_by_position (S.dropWhile (fun rc => decide (l > rc.1))) F).Perm
        (S.takeWhile (fun rc => decide (l > rc.1)) ++
          (l, d) :: (S.dropWhile (fun rc => decide (l > rc.1)) ++ F)) :=
      List.Perm.append_left _ (List.Perm.cons _ h1)
    refine h2.trans ?_
    refine List.perm_middle.trans ?_
    rw [← List.append_assoc, List.takeWhile_append_dropWhile]
    exact List.perm_middle.symm

theorem dropWhile_gt_of_sorted (l : Int) (S : List (Int × Column))
    (hS : S.Pairwise (fun a b => a.1 < b.1)) (hne : ∀ y ∈ S, l ≠ y.1) :
    ∀ b ∈ S.dropWhile (fun rc => decide (l > rc.1)), l < b.1 := by
  induction S with
  | nil => simp
  | cons a S ih =>
    have hp := List.pairwise_cons.1 hS
    by_cases h : l > a.1
    · rw [List.dropWhile_cons_of_pos (by simpa using h)]
      exact ih hp.2 (fun y hy => hne y (List.mem_cons_of_mem _ hy))
    · rw [List.dropWhile_cons_of_neg (by simpa using h)]
      have ha : l < a.1 := by
        have := hne a (by simp)
        omega
      intro b hb
      rcases List.mem_cons.1 hb with rfl | hb
      · exact ha
      · have := hp.1 b hb
        omega

theorem merge_by_position_sorted (S F : List (Int × Column))
    (hS : S.Pairwise (fun a b => a.1 < b.1)) (hF : F.Pairwise (fun a b => a.1 < b.1))
    (hdisj : ∀ x ∈ F, ∀ y ∈ S, x.1 ≠ y.1) :
    (merge_by_position S F).Pairwise (fun a b => a.1 < b.1) := by
  induction F generalizing S with
  | nil => simpa [merge_by_position] using hS
  | cons ld F ih =>
    obtain ⟨l, d⟩ := ld
    have hFp := List.pairwise_cons.1 hF
    have hsplit := List.takeWhile_append_dropWhile (fun rc : Int × Column => decide (l > rc.1)) S
    have hS2 := hS
    rw [← hsplit] at hS2
    have hSp := List.pairwise_append.1 hS2
    have hD : ∀ b ∈ S.dropWhile (fun rc => decide (l > rc.1)), l < b.1 :=
      dropWhile_gt_of_sorted l S hS (fun y hy => hdisj (l, d) (by simp) y hy)
    have hT : ∀ a ∈ S.takeWhile (fun rc => decide (l > rc.1)), a.1 < l := by
      intro a ha
      have := List.mem_takeWhile_imp ha
      simpa using this
    have hM := ih (S.dropWhile (fun rc => decide (l > rc.1))) hSp.2.1 hFp.2
      (fun x hx y hy => hdisj x (List.mem_cons_of_mem _ hx) y
        ((List.dropWhile_sublist _).subset hy))
    have hMmem : ∀ b ∈ merge_by_position (S.dropWhile (fun rc => decide (l > rc.1))) F,
        l < b.1 := by
      intro b hb
      rcases List.mem_append.1 ((merge_by_position_perm _ _).subset hb) with hb | hb
      · exact hD b hb
      · exact hFp.1 b hb
    simp only [merge_by_position]
    refine List.pairwise_append.2 ⟨hSp.1, List.pairwise_cons.2 ⟨hMmem, hM⟩, ?_⟩
    intro a ha b hb
    have h1 := hT a ha
    rcases List.mem_cons.1 hb with rfl | hb
    · exact h1
    · have := hMmem b hb
      omega

theorem mem_irange (n : Nat) (x : Int) : x ∈ irange (n : Int) ↔ 0 ≤ x ∧ x < n := by
  simp only [irange, Int.toNat_ofNat, List.mem_map, List.mem_range]
  constructor
  · rintro ⟨i, hi, rfl⟩
    exact ⟨Int.natCast_nonneg _, Int.ofNat_lt.2 hi⟩
  · rintro ⟨h0, h1⟩
    refine ⟨x.toNat, ?_, Int.toNat_of_nonneg h0⟩
    omega

theorem set_difference_nil (a : List Int) : set_difference a [] = a := by
  induction a with
  | nil => rfl
  | cons x xs ih => simp [set_difference, set_difference_head, ih]

theorem set_difference_eq_filter (a b : List Int) (ha : a.Sorted (· < ·))
    (hb : b.Sorted (· < ·)) : set_difference a b = a.filter (fun x => decide (x ∉ b)) := by
  induction a generalizing b with
  | nil => rfl
  | cons x xs ih =>
    have hx := List.sorted_cons.1 ha
    induction b with
    | nil => simp [set_difference_nil]
    | cons y ys ihb =>
      have hy := List.sorted_cons.1 hb
      simp only [set_difference, set_difference_head]
      by_cases h1 : x < y
      · have hxn : x ∉ y :: ys := by
          intro hmem
          rcases List.mem_cons.1 hmem with rfl | hmem
          · omega
          · have := hy.1 x hmem
            omega
        rw [if_pos h1, List.filter_cons_of_pos (by simpa using hxn), ih (y :: ys) hx.2 hb]
      · rw [if_neg h1]
        by_cases h2 : y < x
        · rw [if_pos h2]
          have := ihb hy.2
          simp only [set_difference] at this
          rw [this]
          apply List.filter_congr
          intro z hz
          have hzy : z ≠ y := by
            rcases List.mem_cons.1 hz with rfl | hz
            · omega
            · have := hx.1 z hz
              omega
          simp [hzy]
        · rw [if_neg h2]
          have hxy : x = y := by omega
          subst hxy
          rw [List.filter_cons_of_neg (by simp), ih ys hx.2 hy.2]
          apply List.filter_congr
          intro z hz
          have hzx : z ≠ x := by
            have := hx.1 z hz
            omega
          simp [hzx]

theorem irange_sorted (n : Int) : (irange n).Sorted (· < ·) := by
  unfold irange
  refine List.pairwise_map.2 ((List.pairwise_lt_range _).imp ?_)
  intro a b hab
  exact Int.ofNat_lt.2 hab

theorem loaded_positions (cols : List Column) (F : List Int) (hF : F.Sorted (· < ·))
    (hrange : ∀ x ∈ F, 0 ≤ x ∧ x < cols.length) :
    (cols.enum.filter (fun ic => decide ((ic.1 : Int) ∉
        set_difference (irange ((cols.length : Int) - 1 + 1)) F))).map
      (fun ic => (ic.1 : Int)) = F := by
  have hn : (cols.length : Int) - 1 + 1 = (cols.length : Int) := by omega
  rw [hn, set_difference_eq_filter _ _ (irange_sorted _) hF]
  have henum : cols.enum.Pairwise (fun a b => a.1 < b.1) := by
    have := List.pairwise_lt_range cols.length
    rw [← List.enum_map_fst, List.pairwise_map] at this
    exact this
  have hsortedL : ((cols.enum.filter (fun ic => decide ((ic.1 : Int) ∉
        (irange (cols.length : Int)).filter (fun x => decide (x ∉ F))))).map
      (fun ic => (ic.1 : Int))).Sorted (· < ·) := by
    refine List.pairwise_map.2 ((henum.filter _).imp ?_)
    intro a b hab
    exact_mod_cast hab
  refine List.eq_of_perm_of_sorted ?_ hsortedL.le_of_lt hF.le_of_lt
  rw [List.perm_ext_iff_of_nodup hsortedL.nodup hF.nodup]
  intro x
  simp only [List.mem_map, List.mem_filter, decide_eq_true_eq, not_and, not_not, mem_irange]
  constructor
  · rintro ⟨ic, ⟨hic, hcomp⟩, rfl⟩
    have hlt : ic.1 < cols.length := by
      have := List.mem_enum_iff_getElem?.1 hic
      exact (List.getElem?_eq_some.1 this).1
    exact hcomp ⟨Int.natCast_nonneg _, by exact_mod_cast hlt⟩
  · intro hx
    obtain ⟨h0, h1⟩ := hrange x hx
    have hlt : x.toNat < cols.length := by omega
    refine ⟨(x.toNat, cols[x.toNat]), ⟨?_, ?_⟩, ?_⟩
    · rw [List.mem_enum_iff_getElem?]
      simp [hlt]
    · intro _
      simpa [Int.toNat_of_nonneg h0] using hx
    · simp [Int.toNat_of_nonneg h0]

theorem sorted_filter_lt_length (L : List Int) (hL : L.Sorted (· < ·)) (i : Nat)
    (h : i < L.length) : (L.filter (fun y => decide (y < L[i]))).length = i := by
  induction L generalizing i with
  | nil => simp at h
  | cons a L ih =>
    have hp := List.sorted_cons.1 hL
    cases i with
    | zero =>
      have : (a :: L).filter (fun y => decide (y < a)) = [] := by
        rw [List.filter_eq_nil_iff]
        intro y hy
        rcases List.mem_cons.1 hy with rfl | hy
        · simp
        · have := hp.1 y hy
          simp only [decide_eq_true_eq]
          omega
      simpa using congrArg List.length this
    | succ i =>
      have hi : i < L.length := by simpa using h
      have ha : a < L[i] := hp.1 _ (List.getElem_mem _)
      simp only [List.getElem_cons_succ]
      rw [List.filter_cons_of_pos (by simpa using ha), List.length_cons, ih hp.2 i hi]

theorem sorted_getElem?_rank (M : List (Int × Column))
    (hM : M.Pairwise (fun a b => a.1 < b.1)) (x : Int) (c : Column) (hmem : (x, c) ∈ M) :
    M[((M.map Prod.fst).filter (fun y => decide (y < x))).length]? = some (x, c) := by
  obtain ⟨i, hi, hget⟩ := List.getElem_of_mem hmem
  have hL : (M.map Prod.fst).Sorted (· < ·) := List.pairwise_map.2 hM
  have hi2 : i < (M.map Prod.fst).length := by simpa using hi
  have hx : (M.map Prod.fst)[i] = x := by simp [hget]
  have := sorted_filter_lt_length _ hL i hi2
  rw [hx] at this
  rw [this, List.getElem?_eq_getElem hi, hget]

theorem filter_lt_length_perm (L L2 : List Int) (hp : L.Perm L2) (x : Int) :
    (L.filter (fun y => decide (y < x))).length = (L2.filter (fun y => decide (y < x))).length :=
  (hp.filter _).length_eq

theorem features_positions_labels (header : List String) (M : List (Int × Column))
    (hall : ∀ xc ∈ M, xc.2.label ∈ header ∧ (header.indexOf xc.2.label : Int) = xc.1) :
    features_positions header (ITable.get_labels (M.map Prod.snd)) = .ok (M.map Prod.fst) := by
  rw [features_positions_of_mem]
  · congr 1
    simp only [ITable.get_labels, List.map_map]
    apply List.map_congr_left
    intro xc hxc
    exact (hall xc hxc).2
  · intro n hn
    simp only [ITable.get_labels, List.map_map, List.mem_map] at hn
    obtain ⟨xc, hxc, rfl⟩ := hn
    exact (hall xc hxc).1

/-- C4: when the selected columns of the filtered table have strictly increasing
positions s in the data file, and the forced names that are not yet selected
have pairwise distinct positions f, none of them in s, add_force_features
returns a table with the same output column whose input columns, from left to
right, have as positions the sorted merge of s and f, strictly increasing; the
forced column of position x stands at index (number of selected positions
smaller than x) + (number of forced positions smaller than x), which is the end
of the table when no position is larger, and it is the column of the data file
at x, label and data; the selected column i moves right by the number of forced
positions smaller than its own. -/
theorem forced_columns_merged (E : Env CTable Score) (table : Table)
    (fs_params : feature_selection_parameters) (s f : List Int)
    (hs : features_positions (E.header fs_params.input_file) table.itable.get_labels = .ok s)
    (hf : features_positions (E.header fs_params.input_file)
      (fs_params.force_features_str.filter
        (fun fn => decide (fn ∉ table.itable.get_labels))) = .ok f)
    (hsorted : s.Sorted (· < ·)) (hnodup : f.Nodup) (hdisj : ∀ x ∈ f, x ∉ s) :
    ∃ T : Table,
      (add_force_features E table fs_params).result = .ok T ∧
      T.otable = table.otable ∧
      features_positions (E.header fs_params.input_file) T.itable.get_labels
        = .ok ((s ++ f).insertionSort (· ≤ ·)) ∧
      ((s ++ f).insertionSort (· ≤ ·)).Sorted (· < ·) ∧
      (∀ x ∈ f, ∃ c, (E.file fs_params.input_file)[x.toNat]? = some c ∧
        T.itable[(s.filter (fun y => decide (y < x))).length
          + (f.filter (fun y => decide (y < x))).length]? = some c) ∧
      (∀ i x c, s[i]? = some x → table.itable[i]? = some c →
        T.itable[i + (f.filter (fun y => decide (y < x))).length]? = some c) := by
  obtain ⟨cols, hcols⟩ : ∃ cols, cols = E.file fs_params.input_file := ⟨_, rfl⟩
  have hheader : E.header fs_params.input_file = cols.map Column.label := by
    rw [hcols]; rfl
  obtain ⟨hsmem, hseq⟩ := features_positions_ok _ _ _ hs
  obtain ⟨hfmem, hfeq⟩ := features_positions_ok _ _ _ hf
  obtain ⟨F, hFdef⟩ : ∃ F, F = f.insertionSort (· ≤ ·) := ⟨_, rfl⟩
  have hFperm : F.Perm f := by rw [hFdef]; exact List.perm_insertionSort _ f
  have hFsorted : F.Sorted (· < ·) := by
    rw [hFdef]
    exact (List.sorted_insertionSort (· ≤ ·) f).lt_of_le
      ((List.perm_insertionSort _ f).nodup_iff.2 hnodup)
  have hfrange : ∀ x ∈ f, 0 ≤ x ∧ x < cols.length := by
    intro x hx
    rw [hfeq] at hx
    obtain ⟨n, hn, rfl⟩ := List.mem_map.1 hx
    have := List.indexOf_lt_length.2 (hfmem n hn)
    have hlen : (E.header fs_params.input_file).length = cols.length := by
      rw [hheader, List.length_map]
    rw [hlen] at this
    exact ⟨Int.natCast_nonneg _, by exact_mod_cast this⟩
  have hFrange : ∀ x ∈ F, 0 ≤ x ∧ x < cols.length :=
    fun x hx => hfrange x (hFperm.subset hx)
  -- the columns loaded from the data file, with their positions
  obtain ⟨P, hPdef⟩ : ∃ P, P = cols.enum.filter (fun ic => decide ((ic.1 : Int) ∉
      set_difference (irange ((cols.length : Int) - 1 + 1)) F)) := ⟨_, rfl⟩
  have hload : P.map (fun ic => (ic.1 : Int)) = F := by
    rw [hPdef]
    exact loaded_positions cols F hFsorted hFrange
  have hPcol : ∀ ic ∈ P, cols[ic.1]? = some ic.2 := by
    intro ic hic
    rw [hPdef] at hic
    exact List.mem_enum_iff_getElem?.1 (List.mem_filter.1 hic).1
  obtain ⟨Fz, hFz⟩ : ∃ Fz : List (Int × Column), Fz = P.map (fun ic => ((ic.1 : Int), ic.2)) :=
    ⟨_, rfl⟩
  have hFz1 : Fz.map Prod.fst = F := by
    rw [hFz, List.map_map, ← hload]
    rfl
  have hFz2 : Fz.map Prod.snd = P.map Prod.snd := by
    rw [hFz, List.map_map]
    rfl
  obtain ⟨S, hS⟩ : ∃ S : List (Int × Column), S = table.itable.map
      (fun c => (((E.header fs_params.input_file).indexOf c.label : Int), c)) := ⟨_, rfl⟩
  have hS1 : S.map Prod.fst = s := by
    rw [hS, hseq, List.map_map, ITable.get_labels, List.map_map]
    rfl
  have hS2 : S.map Prod.snd = table.itable := by
    rw [hS, List.map_map]
    simp [Function.comp_def]
  -- the loop computes the merge
  obtain ⟨M, hM⟩ : ∃ M, M = merge_by_position S Fz := ⟨_, rfl⟩
  have hrun : insert_forced (P.map Prod.snd) F 0 0 s table.itable = .ok (M.map Prod.snd) := by
    have := insert_forced_eq_merge (P.map Prod.snd) Fz S 0 0 []
      (by rw [List.drop_zero, hFz2]) rfl
    rw [hFz1, hS1, hS2, List.nil_append, List.nil_append, ← hM] at this
    exact this
  have hMperm : (M.map Prod.fst).Perm (s ++ f) := by
    have h1 := (merge_by_position_perm S Fz).map Prod.fst
    rw [List.map_append, hS1, hFz1, ← hM] at h1
    exact h1.trans (List.Perm.append_left _ hFperm)
  have hSpw : S.Pairwise (fun a b => a.1 < b.1) := by
    have : (S.map Prod.fst).Sorted (· < ·) := by rw [hS1]; exact hsorted
    exact List.pairwise_map.1 this
  have hFpw : Fz.Pairwise (fun a b => a.1 < b.1) := by
    have : (Fz.map Prod.fst).Sorted (· < ·) := by rw [hFz1]; exact hFsorted
    exact List.pairwise_map.1 this
  have hMpw : M.Pairwise (fun a b => a.1 < b.1) := by
    rw [hM]
    refine merge_by_position_sorted S Fz hSpw hFpw ?_
    intro x hx y hy hxy
    have hx1 : x.1 ∈ f := hFperm.subset (by rw [← hFz1]; exact List.mem_map_of_mem _ hx)
    have hy1 : y.1 ∈ s := by rw [← hS1]; exact List.mem_map_of_mem _ hy
    exact hdisj x.1 hx1 (hxy ▸ hy1)
  have hMsorted : (M.map Prod.fst).Sorted (· < ·) := List.pairwise_map.2 hMpw
  have hMeq : M.map Prod.fst = (s ++ f).insertionSort (· ≤ ·) :=
    List.eq_of_perm_of_sorted (hMperm.trans (List.perm_insertionSort _ _).symm)
      hMsorted.le_of_lt (List.sorted_insertionSort (· ≤ ·) _)
  have hMmem : ∀ xc ∈ M, xc ∈ S ∨ xc ∈ Fz := by
    intro xc hxc
    rw [hM] at hxc
    exact List.mem_append.1 ((merge_by_position_perm S Fz).subset hxc)
  have hlabel : ∀ xc ∈ M, xc.2.label ∈ E.header fs_params.input_file ∧
      ((E.header fs_params.input_file).indexOf xc.2.label : Int) = xc.1 := by
    intro xc hxc
    rcases hMmem xc hxc with h | h
    · rw [hS] at h
      obtain ⟨c, hc, rfl⟩ := List.mem_map.1 h
      exact ⟨hsmem _ (List.mem_map_of_mem _ hc), rfl⟩
    · rw [hFz] at h
      obtain ⟨ic, hic, rfl⟩ := List.mem_map.1 h
      have hcol := hPcol ic hic
      have hinF : (ic.1 : Int) ∈ f := hFperm.subset (by
        rw [← hload]
        exact List.mem_map_of_mem (fun ic : Nat × Column => (ic.1 : Int)) hic)
      rw [hfeq] at hinF
      obtain ⟨n, hn, hidx⟩ := List.mem_map.1 hinF
      have hnh := hfmem n hn
      have hidx2 : (E.header fs_params.input_file).indexOf n = ic.1 := by exact_mod_cast hidx
      have hlt := List.indexOf_lt_length.2 hnh
      have hget : (E.header fs_params.input_file)[(E.header fs_params.input_file).indexOf n]
          = n := List.getElem_indexOf hlt
      have hlab : ic.2.label = n := by
        have h2 : (E.header fs_params.input_file)[ic.1]? = some ic.2.label := by
          rw [hheader, List.getElem?_map, hcol]
          rfl
        rw [← hidx2, List.getElem?_eq_getElem hlt, hget] at h2
        injection h2 with h2
        exact h2.symm
      simp only [hlab]
      exact ⟨hnh, hidx⟩
  have hrank : ∀ x, ((M.map Prod.fst).filter (fun y => decide (y < x))).length
      = (s.filter (fun y => decide (y < x))).length
        + (f.filter (fun y => decide (y < x))).length := by
    intro x
    rw [filter_lt_length_perm _ _ hMperm x, List.filter_append, List.length_append]
  refine ⟨⟨M.map Prod.snd, table.otable⟩, ?_, rfl, ?_, ?_, ?_, ?_⟩
  · rw [add_force_features_unfold]
    simp only [hf, hs]
    rw [← hcols, ← hFdef, ← hPdef, hrun]
  · show features_positions _ (ITable.get_labels (M.map Prod.snd)) = _
    rw [features_positions_labels _ M hlabel, hMeq]
  · rw [← hMeq]
    exact hMsorted
  · intro x hx
    have hxF : x ∈ P.map (fun ic => (ic.1 : Int)) := by
      rw [hload]
      exact hFperm.symm.subset hx
    obtain ⟨ic, hic, hicx⟩ := List.mem_map.1 hxF
    have hxM : (x, ic.2) ∈ M := by
      rw [hM]
      refine (merge_by_position_perm S Fz).symm.subset (List.mem_append_right _ ?_)
      rw [hFz, ← hicx]
      exact List.mem_map_of_mem (fun ic : Nat × Column => ((ic.1 : Int), ic.2)) hic
    refine ⟨ic.2, ?_, ?_⟩
    · rw [← hcols, ← hicx, Int.toNat_ofNat]
      exact hPcol ic hic
    · show (M.map Prod.snd)[_]? = _
      rw [← hrank x, List.getElem?_map, sorted_getElem?_rank M hMpw x ic.2 hxM]
      rfl
  · intro i x c hsi hci
    have hi : i < s.length := (List.getElem?_eq_some.1 hsi).1
    have hxi : s[i] = x := (List.getElem?_eq_some.1 hsi).2
    have hxS : (x, c) ∈ S := by
      have h1 : S[i]? = some (x, c) := by
        rw [hS, List.getElem?_map, hci]
        have h2 : (S.map Prod.fst)[i]? = some x := by rw [hS1]; exact hsi
        rw [hS, List.map_map, List.getElem?_map, hci] at h2
        simp only [Option.map_some', Function.comp_apply, Option.some.injEq] at h2
        simp [h2]
      obtain ⟨h3, h4⟩ := List.getElem?_eq_some.1 h1
      rw [← h4]
      exact List.getElem_mem _
    have hxM : (x, c) ∈ M := by
      rw [hM]
      exact (merge_by_position_perm S Fz).symm.subset (List.mem_append_left _ hxS)
    have hcount : (s.filter (fun y => decide (y < x))).length = i := by
      rw [← hxi]
      exact sorted_filter_lt_length s hsorted i hi
    show (M.map Prod.snd)[_]? = _
    rw [← hcount, ← hrank x, List.getElem?_map, sorted_getElem?_rank M hMpw x c hxM]
    rfl

theorem forced_columns_merged_witness :
    ∃ T : Table,
      (add_force_features (example_env {0} 0) (example_table.filter {0})
        (example_params "data.csv" "mmi" (-1) 1 ["col3"])).result = .ok T ∧
      T.itable.get_labels = ["col0", "col3"] ∧
      T.itable[1]? = example_file[3]? := by
  obtain ⟨T, hT, -⟩ := forced_columns_merged (example_env {0} 0) (example_table.filter {0})
    (example_params "data.csv" "mmi" (-1) 1 ["col3"]) [0] [3] rfl rfl
    (by decide) (by decide) (by decide)
  refine ⟨T, hT, ?_⟩
  have h2 : (add_force_features (example_env {0} 0) (example_table.filter {0})
      (example_params "data.csv" "mmi" (-1) 1 ["col3"])).result
      = .ok ⟨[⟨"col0", ["1", "0"]⟩, ⟨"col3", ["0", "1"]⟩], ⟨"y", ["1", "0"]⟩⟩ := rfl
  rw [h2] at hT
  injection hT with hT
  rw [← hT]
  exact ⟨rfl, rfl⟩
end

end FeatureSelection
